import Mathlib

/-!
# Slowly Changing Dimension (SCD type 2) reader and writer

A shallow embedding of `scd.go`: the reflection helpers (`getStructFieldName`,
`getValue`, `getFieldValue`, `setFieldValue`), the read path `SCD.Read` and the
write path `SCD.Write`, over a small model of the storage collaborator (one
table of rows, an optional unique index on (identity, version), and injected
storage faults).

Modelling conventions

* A record passed to the package is a pointer to a flat Go struct: a list of
  fields with distinct Go names (embedded structs are not modelled).  Each
  field carries whether it is exported; the gorm schema of the record lists
  its exported fields in declaration order, each with the column name gorm
  maps it to.
* A table row has the identity column, the version column and the remaining
  columns.  Rows hold Go values, so there is no SQL NULL.
* An insert of a record whose auto-increment primary key is zero lets the
  database generate the key, and gorm writes it back into the record.  The
  sequence of the database is taken to be in step with the table: it hands
  out one more than the largest key stored (and at least 1).  A key that is
  not zero is inserted as it is and rejected when a row already has it.
* A filter passed to `Read` is a predicate on rows (a `WHERE` condition);
  filters are applied conjunctively.  The result of `Read` is the list of rows
  materialised into `dest`, in table order.
* Go `int` is the 64-bit signed integer: `maxVersion+1` wraps modulo `2^64`.
* A Go call either returns (a value or an error) or panics; `Result` keeps the
  three apart.
* `db.Transaction(fc)` commits what `fc` did when it returns nil and restores
  the state at begin otherwise.  `WriteResult.issued` records the statements
  sent to the storage.
* Two concurrent writers are modelled by interleaving the two storage
  statements of `Write` (the max-version read, the insert) on a shared table
  whose inserts are visible at once.
-/

namespace Mercor

/-! ## Go values and records -/

/-- Static types of struct fields. -/
inductive GoType
  | int
  | int64
  | string
  | bool
  | any
  deriving DecidableEq

/-- Go values stored in struct fields or boxed in an `any`. -/
inductive GoValue
  | int (n : Int)
  | int64 (n : Int)
  | str (s : String)
  | bool (b : Bool)
  | nil
  deriving DecidableEq

/-- Dynamic type of a value, as `reflect.ValueOf(v).Type()`; the nil interface has none. -/
def GoValue.typeOf : GoValue → Option GoType
  | .int _ => some .int
  | .int64 _ => some .int64
  | .str _ => some .string
  | .bool _ => some .bool
  | .nil => none

/-- Go assignability of a value of type `vt` to a location of type `ft`. -/
def assignableTo (vt ft : GoType) : Bool :=
  decide (ft = GoType.any) || decide (vt = ft)

/-- One field of a Go struct value as reflection and gorm describe it: its Go
name, the column gorm maps it to, its type and value, whether the name is
exported (it starts with an upper-case letter, of any script; reflection
records this with the field), and whether gorm treats it as the
auto-increment primary key of the model (`Field.AutoIncrement`). -/
structure StructField where
  name : String
  dbName : String
  typ : GoType
  value : GoValue
  exported : Bool
  autoIncrement : Bool
  deriving DecidableEq

/-- A pointer to a Go struct value; Go field names are distinct. -/
structure Record where
  fields : List StructField
  nodup : (fields.map (fun f => f.name)).Nodup

instance : DecidableEq Record := fun a b =>
  if h : a.fields = b.fields then isTrue (by cases a; cases b; cases h; rfl)
  else isFalse (fun e => h (by rw [e]))

/-- Errors returned by the package and by the storage collaborator. -/
inductive Error
  | columnNotFound (column : String)
  | fieldNotFound (field : String)
  | cannotSet (field : String)
  | uniqueViolation
  | storage (msg : String)
  deriving DecidableEq

/-- Outcome of a Go call: a returned value, a returned error, or a panic. -/
inductive Result (α : Type)
  | ok (a : α)
  | error (e : Error)
  | panic (msg : String)
  deriving DecidableEq

/-! ## Storage collaborator -/

/-- One persisted row: identity column, version column, remaining columns. -/
structure Row where
  id : GoValue
  version : Int
  payload : List (String × GoValue)
  deriving DecidableEq

/-- Database handle (`*gorm.DB`): the rows of the configured table, whether the
schema declares a unique index on (identity, version), and faults the storage
injects into the scalar query, the insert and the row query. -/
structure DB where
  rows : List Row
  uniqueIndex : Bool
  scanFault : Option String
  createFault : Option String
  findFault : Option String

/-- Statements issued to the storage collaborator. -/
inductive Stmt
  | selectMax (uid : GoValue)
  | insert (newRecord : Record)
  deriving DecidableEq

/-- Configuration of the pattern (`SCDConfig`). -/
structure SCDConfig where
  TableName : String
  IDColumn : String
  VersionColumn : String

/-- Reader and writer bound to a database handle and a configuration (`SCD`). -/
structure SCD where
  db : DB
  config : SCDConfig

def NewSCD (db : DB) (config : SCDConfig) : SCD := ⟨db, config⟩

/-! ## Machine integers -/

def maxInt : Int := 2 ^ 63 - 1

def minInt : Int := -(2 ^ 63)

/-- Two-complement wrap of a mathematical integer into Go `int`. -/
def wrapInt (n : Int) : Int := (n + 2 ^ 63) % 2 ^ 64 - 2 ^ 63

/-- Go `a + b` on `int`. -/
def addInt (a b : Int) : Int := wrapInt (a + b)

/-! ## Schema accessor -/

/-- Fields of the gorm schema parsed from the model: the exported fields. -/
def schemaFields (model : Record) : List StructField :=
  model.fields.filter (fun f => f.exported)

def getStructFieldName (_db : DB) (model : Record) (columnName : String) : Result String :=
  match (schemaFields model).find? (fun field => decide (field.dbName = columnName)) with
  | some field => .ok field.name
  | none => .error (.columnNotFound columnName)

/-- Reflective lookup `reflect.ValueOf(data).Elem().FieldByName(fieldName)`;
`none` is the invalid (zero) `reflect.Value`. -/
def getValue (data : Record) (fieldName : String) : Option StructField :=
  data.fields.find? (fun f => decide (f.name = fieldName))

/-- The method `reflect.Value.CanSet`: the value is addressable (it is, being reached through
the pointer) and was not obtained through an unexported field. -/
def canSet (field : StructField) : Bool := field.exported

def getFieldValue (data : Record) (fieldName : String) : Result GoValue :=
  match getValue data fieldName with
  | none => .error (.fieldNotFound fieldName)
  | some field =>
    if field.exported then .ok field.value
    else .panic "reflect.Value.Interface: cannot return value obtained from unexported field or method"

/-- Replace the value of the field called `fieldName`. -/
def storeField (fields : List StructField) (fieldName : String) (value : GoValue) :
    List StructField :=
  fields.map (fun f => if f.name = fieldName then { f with value := value } else f)

/-- The record after the field called `fieldName` received `value`. -/
def Record.store (data : Record) (fieldName : String) (value : GoValue) : Record :=
  ⟨storeField data.fields fieldName value, by
    have h : (storeField data.fields fieldName value).map (fun f => f.name)
        = data.fields.map (fun f => f.name) := by
      unfold storeField
      rw [List.map_map]
      apply List.map_congr_left
      intro f _
      by_cases h : f.name = fieldName <;> simp [h]
    rw [h]; exact data.nodup⟩

/-- The method `reflect.Value.Set` on a settable field: panics on the zero value and on a
value whose type is not assignable to the field type. -/
def reflectSet (data : Record) (field : StructField) (value : GoValue) : Result Record :=
  match value.typeOf with
  | none => .panic "reflect: call of reflect.Value.Set on zero Value"
  | some vt =>
    if assignableTo vt field.typ then .ok (data.store field.name value)
    else .panic "reflect.Set: value is not assignable to field type"

def setFieldValue (data : Record) (fieldName : String) (value : GoValue) : Result Record :=
  match getValue data fieldName with
  | none => .error (.fieldNotFound fieldName)
  | some field =>
    if !canSet field then .error (.cannotSet fieldName)
    else reflectSet data field value

/-! ## Queries -/

/-- SQL `MAX` over a column: NULL on no rows. -/
def maxOf : List Int → Option Int
  | [] => none
  | v :: vs => some (vs.foldl max v)

/-- Version column of the rows whose identity column equals `uid`. -/
def versionsOf (rows : List Row) (uid : GoValue) : List Int :=
  (rows.filter (fun r => decide (r.id = uid))).map (fun r => r.version)

/-- `SELECT COALESCE(MAX(version), 0) FROM table WHERE id = uid`. -/
def selectMaxVersion (rows : List Row) (uid : GoValue) : Int :=
  (maxOf (versionsOf rows uid)).getD 0

/-- Scalar query scanned into a Go `int`. -/
def Scan (tx : DB) (uid : GoValue) : Result Int :=
  match tx.scanFault with
  | some msg => .error (.storage msg)
  | none =>
    let m := selectMaxVersion tx.rows uid
    if minInt ≤ m ∧ m ≤ maxInt then .ok m
    else .error (.storage "converting driver.Value to int: value out of range")

/-- Value of the column `column` in the record, through the gorm schema. -/
def columnValue (newRecord : Record) (column : String) : Option GoValue :=
  ((schemaFields newRecord).find? (fun f => decide (f.dbName = column))).map (fun f => f.value)

/-- Columns of the record other than the identity and version columns. -/
def payloadOf (config : SCDConfig) (newRecord : Record) : List (String × GoValue) :=
  ((schemaFields newRecord).filter (fun f =>
      decide (f.dbName ≠ config.IDColumn) && decide (f.dbName ≠ config.VersionColumn))).map
    (fun f => (f.dbName, f.value))

/-- Row that an insert of the record stores. -/
def toRow (config : SCDConfig) (newRecord : Record) : Option Row :=
  match columnValue newRecord config.IDColumn, columnValue newRecord config.VersionColumn with
  | some uid, some (.int v) => some ⟨uid, v, payloadOf config newRecord⟩
  | _, _ => none

/-- Whether the table holds a row with this (identity, version) pair. -/
def hasPair (rows : List Row) (uid : GoValue) (v : Int) : Bool :=
  rows.any (fun r => decide (r.id = uid) && decide (r.version = v))

/-- The auto-increment primary key of the model, if it has one. -/
def autoKey (newRecord : Record) : Option StructField :=
  (schemaFields newRecord).find? (fun f => f.autoIncrement)

/-- Whether the model has no auto-increment key, or one mapped to another column. -/
def keyNotColumn (newRecord : Record) (column : String) : Bool :=
  match autoKey newRecord with
  | none => true
  | some key => decide (key.dbName ≠ column)

/-- The zero value of an integer key: gorm leaves such a key to the database. -/
def isZeroKey (v : GoValue) : Bool :=
  decide (v = .int 0) || decide (v = .int64 0)

/-- An integer key as a value of the field type. -/
def keyValue (typ : GoType) (g : Int) : GoValue :=
  if typ = .int64 then .int64 g else .int g

/-- The integer held by a value, if it is one. -/
def intOf : GoValue → Option Int
  | .int k => some k
  | .int64 k => some k
  | _ => none

/-- Value of a column of a stored row. -/
def rowColumn (config : SCDConfig) (row : Row) (column : String) : Option GoValue :=
  if column = config.IDColumn then some row.id
  else if column = config.VersionColumn then some (.int row.version)
  else row.payload.lookup column

/-- Integer keys stored in a column. -/
def keyValues (config : SCDConfig) (rows : List Row) (column : String) : List Int :=
  rows.filterMap (fun r => (rowColumn config r column).bind intOf)

/-- The key the database generates next for a column. -/
def nextKey (config : SCDConfig) (rows : List Row) (column : String) : Int :=
  max ((maxOf (keyValues config rows column)).getD 0) 0 + 1

/-- Whether a row already holds the key `v` in the column. -/
def keyTaken (config : SCDConfig) (rows : List Row) (column : String) (v : GoValue) : Bool :=
  rows.any (fun r => decide ((rowColumn config r column).bind intOf = intOf v))

/-- Primary key of the insert: a zero auto-increment key is generated by the
database and written back into the record, another key is kept and must be
new. -/
def assignKey (config : SCDConfig) (tx : DB) (newRecord : Record) : Result Record :=
  match autoKey newRecord with
  | none => .ok newRecord
  | some key =>
    if isZeroKey key.value then
      if nextKey config tx.rows key.dbName ≤ maxInt then
        .ok (newRecord.store key.name (keyValue key.typ (nextKey config tx.rows key.dbName)))
      else .error (.storage "nextval: reached maximum value of sequence")
    else if keyTaken config tx.rows key.dbName key.value then
      .error (.storage "duplicate key value violates unique constraint (primary key)")
    else .ok newRecord

/-- `tx.Table(name).Create(newRecord)`: assign the primary key, then append the
row, unless the storage fails or the unique index on (identity, version)
rejects it.  Returns the table and the record with its key written back. -/
def Create (config : SCDConfig) (tx : DB) (newRecord : Record) : Result (DB × Record) :=
  match tx.createFault with
  | some msg => .error (.storage msg)
  | none =>
    match assignKey config tx newRecord with
    | .error e => .error e
    | .panic p => .panic p
    | .ok keyed =>
      match toRow config keyed with
      | none => .error (.storage "record does not match the table")
      | some row =>
        if tx.uniqueIndex && hasPair tx.rows row.id row.version then .error .uniqueViolation
        else .ok ({ tx with rows := tx.rows ++ [row] }, keyed)

/-- The latest view: `SELECT id, MAX(version) AS max_version FROM table GROUP BY id`. -/
def subQuery (rows : List Row) : List (GoValue × Int) :=
  ((rows.map (fun r => r.id)).dedup).filterMap
    (fun i => (maxOf (versionsOf rows i)).map (fun m => (i, m)))

/-- Rows of `mainQuery JOIN latest ON id = latest.id AND version = latest.max_version`. -/
def joinLatest (mainQuery : List Row) (latest : List (GoValue × Int)) : List Row :=
  mainQuery.flatMap (fun r =>
    (latest.filter (fun l => decide (r.id = l.1) && decide (r.version = l.2))).map (fun _ => r))

/-! ## Read and Write -/

def Read (s : SCD) (filters : List (Row → Bool)) : Result (List Row) :=
  let latest := subQuery s.db.rows
  let mainQuery := filters.foldl (fun q filter => q.filter filter) s.db.rows
  match s.db.findFault with
  | some msg => .error (.storage msg)
  | none => .ok (joinLatest mainQuery latest)

/-- What a call of `Write` leaves behind: the returned error (or panic), the
database, the caller's record, and the statements issued. -/
structure WriteResult where
  err : Result Unit
  db : DB
  record : Record
  issued : List Stmt

/-- Body of the transaction in `Write`. -/
def writeBody (config : SCDConfig) (newRecord : Record) (tx : DB) : WriteResult :=
  match getStructFieldName tx newRecord config.IDColumn with
  | .error e => ⟨.error e, tx, newRecord, []⟩
  | .panic p => ⟨.panic p, tx, newRecord, []⟩
  | .ok idField =>
  match getStructFieldName tx newRecord config.VersionColumn with
  | .error e => ⟨.error e, tx, newRecord, []⟩
  | .panic p => ⟨.panic p, tx, newRecord, []⟩
  | .ok versionField =>
  match getFieldValue newRecord idField with
  | .error e => ⟨.error e, tx, newRecord, []⟩
  | .panic p => ⟨.panic p, tx, newRecord, []⟩
  | .ok uidValue =>
  match Scan tx uidValue with
  | .error e => ⟨.error e, tx, newRecord, [.selectMax uidValue]⟩
  | .panic p => ⟨.panic p, tx, newRecord, [.selectMax uidValue]⟩
  | .ok maxVersion =>
  match setFieldValue newRecord versionField (.int (addInt maxVersion 1)) with
  | .error e => ⟨.error e, tx, newRecord, [.selectMax uidValue]⟩
  | .panic p => ⟨.panic p, tx, newRecord, [.selectMax uidValue]⟩
  | .ok updated =>
  match Create config tx updated with
  | .error e => ⟨.error e, tx, updated, [.selectMax uidValue, .insert updated]⟩
  | .panic p => ⟨.panic p, tx, updated, [.selectMax uidValue, .insert updated]⟩
  | .ok (tx2, stored) => ⟨.ok (), tx2, stored, [.selectMax uidValue, .insert updated]⟩

/-- `db.Transaction(fc)`: commit what `fc` did when it returns nil, roll back
to the state at begin when it returns an error or panics. -/
def Transaction (db : DB) (fc : DB → WriteResult) : WriteResult :=
  let r := fc db
  match r.err with
  | .ok _ => r
  | _ => { r with db := db }

def Write (s : SCD) (newRecord : Record) : WriteResult :=
  Transaction s.db (writeBody s.config newRecord)


/-! ## Fixtures from the test suite -/

/-- Configuration used by the tests. -/
def userConfig : SCDConfig := ⟨"user_scds", "user_id", "version"⟩

/-- The test model `UserSCD` (without its `Email` and `UpdatedAt` fields); its
`ID` is the auto-increment primary key and is left at zero, as in the tests. -/
def UserSCD (userID : String) (version : Int) (name status : String) : Record :=
  ⟨[⟨"ID", "id", .int, .int 0, true, true⟩,
    ⟨"UserID", "user_id", .string, .str userID, true, false⟩,
    ⟨"Version", "version", .int, .int version, true, false⟩,
    ⟨"Name", "name", .string, .str name, true, false⟩,
    ⟨"Status", "status", .string, .str status, true, false⟩], by simp⟩

/-- A model whose version field is declared `int64` and which has an unexported field. -/
def LedgerSCD (userID : String) : Record :=
  ⟨[⟨"UserID", "user_id", .string, .str userID, true, false⟩,
    ⟨"Version", "version", .int64, .int64 0, true, false⟩,
    ⟨"note", "note", .string, .str "", false, false⟩], by simp⟩

/-- A model without a field for the version column. -/
def PlainUser (userID : String) : Record :=
  ⟨[⟨"UserID", "user_id", .string, .str userID, true, false⟩,
    ⟨"Name", "name", .string, .str "Alice", true, false⟩], by simp⟩

/-- A healthy database holding `rows`, with the unique index of the test schema. -/
def healthyDB (rows : List Row) : DB := ⟨rows, true, none, none, none⟩

/-- A model without a primary key: identity and version only. -/
def EventSCD (userID : String) (version : Int) : Record :=
  ⟨[⟨"UserID", "user_id", .string, .str userID, true, false⟩,
    ⟨"Version", "version", .int, .int version, true, false⟩], by simp⟩

/-- A model whose version field is its auto-increment primary key. -/
def TicketSCD (userID : String) : Record :=
  ⟨[⟨"UserID", "user_id", .string, .str userID, true, false⟩,
    ⟨"Version", "version", .int, .int 0, true, true⟩], by simp⟩

/-- Configuration that takes the generated primary key for the identity column. -/
def keyConfig : SCDConfig := ⟨"user_scds", "id", "version"⟩

/-! ## Two writers interleaved -/

/-- Progress of one call of `Write`: before its max-version read, between that
read (with the version already set on the record) and its insert, or returned. -/
inductive Writer
  | start (newRecord : Record)
  | pending (updated : Record)
  | done (err : Result Unit) (record : Record)
  deriving DecidableEq

/-- The caller's record as the writer holds it. -/
def Writer.record : Writer → Record
  | .start r => r
  | .pending r => r
  | .done _ r => r

/-- Read-max step of `Write`: everything up to and including `setFieldValue`. -/
def readMaxStep (config : SCDConfig) (tx : DB) (newRecord : Record) : Writer :=
  match getStructFieldName tx newRecord config.IDColumn with
  | .error e => .done (.error e) newRecord
  | .panic p => .done (.panic p) newRecord
  | .ok idField =>
  match getStructFieldName tx newRecord config.VersionColumn with
  | .error e => .done (.error e) newRecord
  | .panic p => .done (.panic p) newRecord
  | .ok versionField =>
  match getFieldValue newRecord idField with
  | .error e => .done (.error e) newRecord
  | .panic p => .done (.panic p) newRecord
  | .ok uidValue =>
  match Scan tx uidValue with
  | .error e => .done (.error e) newRecord
  | .panic p => .done (.panic p) newRecord
  | .ok maxVersion =>
  match setFieldValue newRecord versionField (.int (addInt maxVersion 1)) with
  | .error e => .done (.error e) newRecord
  | .panic p => .done (.panic p) newRecord
  | .ok updated => .pending updated

/-- Insert step of `Write`: the final `Create`, committed when it succeeds. -/
def insertStep (config : SCDConfig) (tx : DB) (updated : Record) : DB × Writer :=
  match Create config tx updated with
  | .error e => (tx, .done (.error e) updated)
  | .panic p => (tx, .done (.panic p) updated)
  | .ok (tx2, stored) => (tx2, .done (.ok ()) stored)

/-- One step of a writer against the shared table. -/
def stepWriter (config : SCDConfig) (db : DB) : Writer → DB × Writer
  | .start r => (db, readMaxStep config db r)
  | .pending u => insertStep config db u
  | .done e r => (db, .done e r)

/-- Two writers and the table they share. -/
structure Race where
  db : DB
  a : Writer
  b : Writer

/-- The scheduler lets the first writer (`true`) or the second (`false`) take a step. -/
def stepRace (config : SCDConfig) (st : Race) (first : Bool) : Race :=
  if first then ⟨(stepWriter config st.db st.a).1, (stepWriter config st.db st.a).2, st.b⟩
  else ⟨(stepWriter config st.db st.b).1, st.a, (stepWriter config st.db st.b).2⟩

/-- Run an interleaving of the two writers. -/
def runRace (config : SCDConfig) (st : Race) (schedule : List Bool) : Race :=
  schedule.foldl (stepRace config) st

/-- The row of a writer that returned without error is in the table. -/
def Committed (config : SCDConfig) (db : DB) (w : Writer) : Prop :=
  ∀ r, w = .done (.ok ()) r →
    ∃ row, toRow config r = some row ∧ hasPair db.rows row.id row.version = true

/-- Invariant of a race on a table with the unique index: the rows of the
writers that returned without error are in the table, and they are two rows
with different (identity, version) pairs. -/
def RaceInv (config : SCDConfig) (st : Race) : Prop :=
  st.db.uniqueIndex = true ∧
  Committed config st.db st.a ∧ Committed config st.db st.b ∧
  (∀ ra rb rowA rowB, st.a = .done (.ok ()) ra → st.b = .done (.ok ()) rb →
    toRow config ra = some rowA → toRow config rb = some rowB →
    ¬ (rowA.id = rowB.id ∧ rowA.version = rowB.version))

/-- The writer's record has identity `i`, and while its insert is ahead the
identity column is not its auto-increment primary key. -/
def KeepsIdentity (config : SCDConfig) (i : GoValue) : Writer → Prop
  | .start r => columnValue r config.IDColumn = some i ∧ keyNotColumn r config.IDColumn = true
  | .pending u => columnValue u config.IDColumn = some i ∧ keyNotColumn u config.IDColumn = true
  | .done _ r => columnValue r config.IDColumn = some i

/-- Both writers hold a record of identity `i`. -/
def SameIdentity (config : SCDConfig) (i : GoValue) (st : Race) : Prop :=
  KeepsIdentity config i st.a ∧ KeepsIdentity config i st.b

/-- Number of rows a writer has committed: 1 once it returned nil. -/
def okCount : Writer → Int
  | .done e _ => if e = .ok () then 1 else 0
  | _ => 0

/-- What holds of a writer for identity `i` when the maximum version of `i` was
`m0` at the start of the race and is `m` now: a pending writer holds the
successor of a maximum read in between, a writer that returned nil holds a
version above `m0` and at most `m`. -/
def WriterInv (config : SCDConfig) (i : GoValue) (m0 m : Int) : Writer → Prop
  | .start r => columnValue r config.IDColumn = some i ∧
      keyNotColumn r config.IDColumn = true ∧ keyNotColumn r config.VersionColumn = true
  | .pending u => columnValue u config.IDColumn = some i ∧
      keyNotColumn u config.IDColumn = true ∧ keyNotColumn u config.VersionColumn = true ∧
      ∃ k, m0 ≤ k ∧ k ≤ m ∧ columnValue u config.VersionColumn = some (.int (k + 1))
  | .done e r => e = .ok () →
      ∃ v, m0 < v ∧ v ≤ m ∧ columnValue r config.VersionColumn = some (.int v)

/-- Invariant of a race that ties the table to the version computation: the
maximum version of `i` has grown by one per writer that returned nil, every
version between the starting maximum and the current one is stored, and each
writer satisfies `WriterInv`. -/
def CountInv (config : SCDConfig) (i : GoValue) (m0 : Int) (st : Race) : Prop :=
  st.db.uniqueIndex = true ∧
  selectMaxVersion st.db.rows i = m0 + okCount st.a + okCount st.b ∧
  (∀ v, m0 < v → v ≤ selectMaxVersion st.db.rows i → hasPair st.db.rows i v = true) ∧
  WriterInv config i m0 (selectMaxVersion st.db.rows i) st.a ∧
  WriterInv config i m0 (selectMaxVersion st.db.rows i) st.b

/-- Writes performed one after another, each on the database the previous one left. -/
def WriteAll (s : SCD) : List Record → List WriteResult
  | [] => []
  | d :: ds => Write s d :: WriteAll ⟨(Write s d).db, s.config⟩ ds

/-- Databases reached from an empty table by successful sequential Writes, each
made while the stored versions of its identity are below the largest Go `int`,
of records whose identity column is not their auto-increment primary key. -/
inductive ReachableBelow (config : SCDConfig) : DB → Prop
  | empty (db : DB) (h : db.rows = []) : ReachableBelow config db
  | write (db : DB) (data : Record) (h : ReachableBelow config db)
      (hok : (Write ⟨db, config⟩ data).err = .ok ())
      (hbelow : ∀ i, columnValue data config.IDColumn = some i →
        selectMaxVersion db.rows i < maxInt)
      (hkey : keyNotColumn data config.IDColumn = true) :
      ReachableBelow config (Write ⟨db, config⟩ data).db

/-- The versions 1, 2, ..., N. -/
def versionRange (N : Nat) : List Int :=
  (List.range' 1 N).map (fun k : Nat => (k : Int))

/-- A table holding the versions 1 .. 2^63 - 1 of the identity "t1". -/
def fullTable : List Row :=
  (List.range' 1 9223372036854775807).map (fun k : Nat => Row.mk (.str "t1") (k : Int) [])

/-- A row is current when no row of its identity has a greater version. -/
def IsCurrent (rows : List Row) (r : Row) : Prop :=
  ∀ y ∈ rows, y.id = r.id → y.version ≤ r.version

instance (rows : List Row) (r : Row) : Decidable (IsCurrent rows r) := by
  unfold IsCurrent; infer_instance

/-- No two rows share the same (identity, version) pair. -/
def UniquePairs (rows : List Row) : Prop :=
  (rows.map (fun r => (r.id, r.version))).Nodup

/-- For every identity the versions of its rows are exactly 1, 2, ..., N. -/
def Contiguous (rows : List Row) : Prop :=
  ∀ i : GoValue, ∃ N : Nat,
    (versionsOf rows i).Perm (versionRange N)

/-- Identity value of the row stored for the record once its version field holds `v`. -/
def storedId (fi fv : StructField) (v : Int) : GoValue :=
  if fi.name = fv.name then .int v else fi.value

/-- The scalar the write path reads, in the words of the specification: the
maximum version among the rows of the identity, or 0 when it has no row. -/
def IsMaxOrZero (rows : List Row) (i : GoValue) (m : Int) : Prop :=
  (m ∈ versionsOf rows i ∧ ∀ x ∈ versionsOf rows i, x ≤ m) ∨ (versionsOf rows i = [] ∧ m = 0)

/-- A model with a single counter column. -/
def CounterSCD (version : Int) : Record :=
  ⟨[⟨"Version", "version", .int, .int version, true, false⟩], by simp⟩

/-- Rows inserted by `TestSCD_Read` (name and status columns). -/
def readTestRows : List Row :=
  [⟨.str "user_1", 1, [("name", .str "Alice"), ("status", .str "active")]⟩,
   ⟨.str "user_1", 2, [("name", .str "Alice"), ("status", .str "inactive")]⟩,
   ⟨.str "user_2", 1, [("name", .str "Bob"), ("status", .str "active")]⟩,
   ⟨.str "user_2", 2, [("name", .str "BobKiller"), ("status", .str "active")]⟩,
   ⟨.str "user_3", 1, [("name", .str "Charlie"), ("status", .str "active")]⟩]

/-- The filter `d.Where(column + " = ?", value)` on a text column. -/
def whereEq (column value : String) : Row → Bool :=
  fun r => decide (r.payload.lookup column = some (.str value))

/-! # Lemmas -/

/-! ## Lemmas on `MAX` -/

theorem foldl_max_le_iff (vs : List Int) (v m : Int) :
    vs.foldl max v ≤ m ↔ v ≤ m ∧ ∀ x ∈ vs, x ≤ m := by
  induction vs generalizing v with
  | nil => simp
  | cons a as ih =>
    simp only [List.foldl_cons, ih, max_le_iff, List.mem_cons, forall_eq_or_imp]
    tauto

theorem foldl_max_mem (vs : List Int) (v : Int) : vs.foldl max v ∈ v :: vs := by
  induction vs generalizing v with
  | nil => simp
  | cons a as ih =>
    simp only [List.foldl_cons]
    have h := ih (max v a)
    rcases List.mem_cons.mp h with h1 | h1
    · rcases max_choice v a with h2 | h2
      · rw [h1, h2]; simp
      · rw [h1, h2]; simp
    · exact List.mem_cons_of_mem _ (List.mem_cons_of_mem _ h1)

theorem maxOf_eq_some_iff (l : List Int) (m : Int) :
    maxOf l = some m ↔ m ∈ l ∧ ∀ x ∈ l, x ≤ m := by
  cases l with
  | nil => simp [maxOf]
  | cons v vs =>
    simp only [maxOf, Option.some.injEq]
    constructor
    · intro h
      subst h
      refine ⟨foldl_max_mem vs v, ?_⟩
      have := (foldl_max_le_iff vs v (vs.foldl max v)).mp le_rfl
      intro x hx
      rcases List.mem_cons.mp hx with rfl | hx
      · exact this.1
      · exact this.2 x hx
    · rintro ⟨hm, hub⟩
      apply le_antisymm
      · exact (foldl_max_le_iff vs v m).mpr
          ⟨hub v (List.mem_cons_self _ _), fun x hx => hub x (List.mem_cons_of_mem _ hx)⟩
      · have h := (foldl_max_le_iff vs v (vs.foldl max v)).mp le_rfl
        rcases List.mem_cons.mp hm with rfl | hm2
        · exact h.1
        · exact h.2 m hm2

theorem maxOf_eq_none_iff (l : List Int) : maxOf l = none ↔ l = [] := by
  cases l <;> simp [maxOf]

theorem mem_versionsOf (rows : List Row) (uid : GoValue) (v : Int) :
    v ∈ versionsOf rows uid ↔ ∃ r ∈ rows, r.id = uid ∧ r.version = v := by
  simp [versionsOf, List.mem_map, List.mem_filter, and_assoc]

theorem versionsOf_append (a b : List Row) (uid : GoValue) :
    versionsOf (a ++ b) uid = versionsOf a uid ++ versionsOf b uid := by
  simp [versionsOf]

/-- Every version stored for an identity is at most the scalar the write path reads. -/
theorem le_selectMaxVersion (rows : List Row) (uid : GoValue) (v : Int)
    (hv : v ∈ versionsOf rows uid) : v ≤ selectMaxVersion rows uid := by
  unfold selectMaxVersion
  cases h : maxOf (versionsOf rows uid) with
  | none => rw [(maxOf_eq_none_iff _).mp h] at hv; simp at hv
  | some m => exact ((maxOf_eq_some_iff _ _).mp h).2 v hv

theorem selectMaxVersion_of_empty (rows : List Row) (uid : GoValue)
    (h : versionsOf rows uid = []) : selectMaxVersion rows uid = 0 := by
  simp [selectMaxVersion, h, maxOf]

theorem selectMaxVersion_eq (rows : List Row) (uid : GoValue) (m : Int)
    (hm : m ∈ versionsOf rows uid) (hub : ∀ x ∈ versionsOf rows uid, x ≤ m) :
    selectMaxVersion rows uid = m := by
  simp [selectMaxVersion, (maxOf_eq_some_iff _ _).mpr ⟨hm, hub⟩]

/-! ## Lemmas on the read query -/

theorem foldl_filter_eq (filters : List (Row → Bool)) (rows : List Row) :
    filters.foldl (fun q filter => q.filter filter) rows
      = rows.filter (fun r => filters.all (fun f => f r)) := by
  induction filters generalizing rows with
  | nil => simp
  | cons f fs ih =>
    simp only [List.foldl_cons, ih, List.filter_filter, List.all_cons]
    congr 1
    funext r
    exact Bool.and_comm _ _

theorem filter_eq_of_nodup {α : Type} [DecidableEq α] (l : List α) (hl : l.Nodup) (a : α) :
    l.filter (fun x => decide (a = x)) = if a ∈ l then [a] else [] := by
  induction l with
  | nil => simp
  | cons b bs ih =>
    have hb : b ∉ bs := (List.nodup_cons.mp hl).1
    have hbs := (List.nodup_cons.mp hl).2
    by_cases hab : a = b
    · subst hab
      simp [List.filter_cons, ih hbs, hb]
    · have hba : ¬ b = a := fun h => hab h.symm
      simp [List.filter_cons, ih hbs, hab, hba]

theorem subQuery_nodup (rows : List Row) : (subQuery rows).Nodup := by
  unfold subQuery
  apply List.Nodup.filterMap _ (List.nodup_dedup _)
  intro a b c hc1 hc2
  simp only [Option.mem_def, Option.map_eq_some', Prod.exists] at hc1 hc2
  obtain ⟨m1, _, h1⟩ := hc1
  obtain ⟨m2, _, h2⟩ := hc2
  rw [← h1] at h2
  exact (Prod.mk.inj h2).1.symm

theorem mem_subQuery (rows : List Row) (i : GoValue) (m : Int) :
    (i, m) ∈ subQuery rows ↔ m ∈ versionsOf rows i ∧ ∀ x ∈ versionsOf rows i, x ≤ m := by
  unfold subQuery
  simp only [List.mem_filterMap, List.mem_dedup, List.mem_map, Option.map_eq_some',
    Prod.mk.injEq]
  constructor
  · rintro ⟨j, _, m2, hm, rfl, rfl⟩
    exact (maxOf_eq_some_iff _ _).mp hm
  · rintro ⟨hm, hub⟩
    obtain ⟨r, hr, hid, _⟩ := (mem_versionsOf _ _ _).mp hm
    exact ⟨i, ⟨r, hr, hid⟩, m, (maxOf_eq_some_iff _ _).mpr ⟨hm, hub⟩, rfl, rfl⟩

theorem joinLatest_eq (q : List Row) (latest : List (GoValue × Int)) (hl : latest.Nodup) :
    joinLatest q latest = q.filter (fun r => decide ((r.id, r.version) ∈ latest)) := by
  unfold joinLatest
  induction q with
  | nil => simp
  | cons r rs ih =>
    have h1 : (fun l : GoValue × Int => decide (r.id = l.1) && decide (r.version = l.2))
        = (fun l => decide ((r.id, r.version) = l)) := by
      funext l
      rcases l with ⟨a, b⟩
      simp [Prod.mk.injEq]
    rw [List.flatMap_cons, ih, h1, filter_eq_of_nodup latest hl]
    by_cases hm : (r.id, r.version) ∈ latest <;> simp [List.filter_cons, hm]

theorem mem_latest_iff (rows : List Row) (r : Row) (hr : r ∈ rows) :
    (r.id, r.version) ∈ subQuery rows ↔ IsCurrent rows r := by
  rw [mem_subQuery]
  constructor
  · rintro ⟨_, hub⟩ y hy hid
    exact hub _ ((mem_versionsOf _ _ _).mpr ⟨y, hy, hid, rfl⟩)
  · intro hc
    refine ⟨(mem_versionsOf _ _ _).mpr ⟨r, hr, rfl, rfl⟩, ?_⟩
    intro x hx
    obtain ⟨y, hy, hid, rfl⟩ := (mem_versionsOf _ _ _).mp hx
    exact hc y hy hid

/-- The composed read query returns the rows that pass every filter and are current. -/
theorem readQuery_eq (rows : List Row) (filters : List (Row → Bool)) :
    joinLatest (filters.foldl (fun q filter => q.filter filter) rows) (subQuery rows)
      = rows.filter (fun r => filters.all (fun f => f r) && decide (IsCurrent rows r)) := by
  rw [joinLatest_eq _ _ (subQuery_nodup rows), foldl_filter_eq, List.filter_filter]
  apply List.filter_congr
  intro r hr
  rw [Bool.and_comm]
  congr 1
  exact decide_eq_decide.mpr (mem_latest_iff rows r hr)

theorem filter_eq_singleton {α : Type} (l : List α) (p : α → Bool) (a : α) (hl : l.Nodup)
    (ha : a ∈ l) (hp : p a = true) (huniq : ∀ b ∈ l, p b = true → b = a) :
    l.filter p = [a] := by
  induction l with
  | nil => simp at ha
  | cons b bs ih =>
    have hb : b ∉ bs := (List.nodup_cons.mp hl).1
    have hbs := (List.nodup_cons.mp hl).2
    rcases List.mem_cons.mp ha with rfl | ha2
    · have : bs.filter p = [] := by
        rw [List.filter_eq_nil_iff]
        intro c hc hpc
        have := huniq c (List.mem_cons_of_mem _ hc) hpc
        exact hb (this ▸ hc)
      simp [List.filter_cons, hp, this]
    · have hpb : p b = false := by
        by_contra hne
        have hpb : p b = true := by simpa using hne
        have := huniq b (List.mem_cons_self _ _) hpb
        exact hb (this ▸ ha2)
      simp only [List.filter_cons, hpb]
      exact ih hbs ha2 (fun c hc hpc => huniq c (List.mem_cons_of_mem _ hc) hpc)

theorem current_unique (rows : List Row) (huniq : UniquePairs rows) (a b : Row)
    (ha : a ∈ rows) (hb : b ∈ rows) (hid : b.id = a.id)
    (hca : IsCurrent rows a) (hcb : IsCurrent rows b) : b = a := by
  have h1 : b.version ≤ a.version := hca b hb hid
  have h2 : a.version ≤ b.version := hcb a ha hid.symm
  have hpair : (fun r : Row => (r.id, r.version)) b = (fun r : Row => (r.id, r.version)) a := by
    simp [hid, le_antisymm h1 h2]
  exact List.inj_on_of_nodup_map huniq hb ha hpair

/-- Among the rows the read query returns, those of the identity of a current
row `r` are `r` alone when `r` passes the filters, and none otherwise. -/
theorem readQuery_filter_id (rows : List Row) (filters : List (Row → Bool))
    (huniq : UniquePairs rows) (r : Row) (hr : r ∈ rows) (hc : IsCurrent rows r) :
    (rows.filter (fun x => filters.all (fun f => f x) && decide (IsCurrent rows x))).filter
        (fun x => decide (x.id = r.id))
      = if filters.all (fun f => f r) then [r] else [] := by
  rw [List.filter_filter]
  by_cases hp : filters.all (fun f => f r) = true
  · rw [if_pos hp]
    apply filter_eq_singleton _ _ _ (List.Nodup.of_map _ huniq) hr
    · simp [hp, hc]
    · intro b hb hpb
      simp only [Bool.and_eq_true, decide_eq_true_eq] at hpb
      exact current_unique rows huniq r b hr hb hpb.1 hc hpb.2.2
  · rw [if_neg hp, List.filter_eq_nil_iff]
    intro b hb hpb
    simp only [Bool.and_eq_true, decide_eq_true_eq] at hpb
    have := current_unique rows huniq r b hr hb hpb.1 hc hpb.2.2
    rw [this] at hpb
    exact hp hpb.2.1

theorem uniquePairs_of_versions_nodup (rows : List Row)
    (h : ∀ i, (versionsOf rows i).Nodup) : UniquePairs rows := by
  unfold UniquePairs
  induction rows with
  | nil => simp
  | cons r rs ih =>
    rw [List.map_cons, List.nodup_cons]
    constructor
    · intro hmem
      obtain ⟨y, hy, hpair⟩ := List.mem_map.mp hmem
      have hyid : y.id = r.id := (Prod.mk.inj hpair).1
      have hyv : y.version = r.version := (Prod.mk.inj hpair).2
      have hn := h r.id
      simp only [versionsOf, List.filter_cons, decide_True, if_true, List.map_cons,
        List.nodup_cons] at hn
      apply hn.1
      exact List.mem_map.mpr ⟨y, List.mem_filter.mpr ⟨hy, by simp [hyid]⟩, hyv⟩
    · apply ih
      intro i
      have hn := h i
      unfold versionsOf at hn ⊢
      by_cases hi : r.id = i
      · simp only [List.filter_cons, hi, decide_True, if_true, List.map_cons,
          List.nodup_cons] at hn
        exact hn.2
      · simpa [List.filter_cons, hi] using hn

theorem Contiguous.uniquePairs {rows : List Row} (h : Contiguous rows) : UniquePairs rows := by
  apply uniquePairs_of_versions_nodup
  intro i
  obtain ⟨N, hN⟩ := h i
  apply hN.nodup_iff.mpr
  unfold versionRange
  apply List.Nodup.map
  · intro a b hab
    exact Int.ofNat.inj hab
  · exact List.nodup_range' 1 N

theorem mem_castRange (N : Nat) (v : Int) :
    v ∈ versionRange N ↔ 1 ≤ v ∧ v ≤ N := by
  simp only [versionRange, List.mem_map, List.mem_range'_1]
  constructor
  · rintro ⟨k, ⟨h1, h2⟩, rfl⟩
    omega
  · rintro ⟨h1, h2⟩
    refine ⟨v.toNat, ?_, ?_⟩ <;> omega

theorem Read_eq (s : SCD) (filters : List (Row → Bool)) (hfault : s.db.findFault = none) :
    Read s filters = .ok (s.db.rows.filter
      (fun r => filters.all (fun f => f r) && decide (IsCurrent s.db.rows r))) := by
  simp only [Read, hfault]
  rw [readQuery_eq]

/-! ## Lemmas on the schema accessor -/

theorem find_name_of_mem (fields : List StructField)
    (hn : (fields.map (fun f => f.name)).Nodup) (f : StructField) (hf : f ∈ fields) :
    fields.find? (fun g => decide (g.name = f.name)) = some f := by
  cases h : fields.find? (fun g => decide (g.name = f.name)) with
  | none =>
    have := List.find?_eq_none.mp h f hf
    simp at this
  | some g =>
    have hg : g ∈ fields := List.mem_of_find?_eq_some h
    have hname : g.name = f.name := by simpa using List.find?_some h
    rw [List.inj_on_of_nodup_map hn hg hf hname]

/-- The schema field gorm resolves for a column is the field reflection finds under its name. -/
theorem schema_field_spec (data : Record) (col : String) (f : StructField)
    (h : (schemaFields data).find? (fun g => decide (g.dbName = col)) = some f) :
    f ∈ data.fields ∧ f.exported = true ∧ f.dbName = col ∧
      getValue data f.name = some f := by
  have hmem : f ∈ schemaFields data := List.mem_of_find?_eq_some h
  have hcol : f.dbName = col := by simpa using List.find?_some h
  have hmem2 := List.mem_filter.mp hmem
  exact ⟨hmem2.1, hmem2.2, hcol, find_name_of_mem _ data.nodup f hmem2.1⟩

theorem schemaFields_store (data : Record) (n : String) (v : GoValue) :
    schemaFields (data.store n v)
      = (schemaFields data).map
          (fun f => if f.name = n then { f with value := v } else f) := by
  simp only [schemaFields, Record.store, storeField, List.filter_map]
  congr 1
  apply List.filter_congr
  intro f _
  by_cases h : f.name = n <;> simp [h]

theorem columnValue_store (data : Record) (n : String) (v : GoValue) (col : String) :
    columnValue (data.store n v) col
      = ((schemaFields data).find? (fun g => decide (g.dbName = col))).map
          (fun f => if f.name = n then v else f.value) := by
  simp only [columnValue, schemaFields_store, List.find?_map, Option.map_map]
  have hp : ((fun g : StructField => decide (g.dbName = col)) ∘
      (fun f : StructField => if f.name = n then { f with value := v } else f))
      = (fun g : StructField => decide (g.dbName = col)) := by
    funext f
    by_cases h : f.name = n <;> simp [h]
  rw [hp]
  congr 1
  funext f
  by_cases h : f.name = n <;> simp [h]

theorem payloadOf_store (config : SCDConfig) (data : Record) (fv : StructField) (v : GoValue)
    (hv : (schemaFields data).find? (fun g => decide (g.dbName = config.VersionColumn)) = some fv) :
    payloadOf config (data.store fv.name v) = payloadOf config data := by
  obtain ⟨hfv, _, hcol, _⟩ := schema_field_spec data _ fv hv
  simp only [payloadOf, schemaFields_store, List.filter_map, List.map_map]
  have hp : ((fun f : StructField =>
        decide (f.dbName ≠ config.IDColumn) && decide (f.dbName ≠ config.VersionColumn)) ∘
      (fun f : StructField => if f.name = fv.name then { f with value := v } else f))
      = (fun f : StructField =>
        decide (f.dbName ≠ config.IDColumn) && decide (f.dbName ≠ config.VersionColumn)) := by
    funext f
    by_cases h : f.name = fv.name <;> simp [h]
  rw [hp]
  apply List.map_congr_left
  intro f hf
  have hf2 := List.mem_filter.mp hf
  have hfmem : f ∈ data.fields := (List.mem_filter.mp hf2.1).1
  have hne : f.name ≠ fv.name := by
    intro hname
    have : f = fv := List.inj_on_of_nodup_map data.nodup hfmem hfv hname
    have hcond := hf2.2
    simp only [Bool.and_eq_true, decide_eq_true_eq] at hcond
    exact hcond.2 (this ▸ hcol)
  simp [hne]

theorem field_names_ne (config : SCDConfig) (data : Record) (fi fv : StructField)
    (hcfg : config.IDColumn ≠ config.VersionColumn)
    (hi : (schemaFields data).find? (fun g => decide (g.dbName = config.IDColumn)) = some fi)
    (hv : (schemaFields data).find? (fun g => decide (g.dbName = config.VersionColumn)) = some fv) :
    fi.name ≠ fv.name := by
  obtain ⟨hfi, _, hci, _⟩ := schema_field_spec data _ fi hi
  obtain ⟨hfv, _, hcv, _⟩ := schema_field_spec data _ fv hv
  intro hname
  have : fi = fv := List.inj_on_of_nodup_map data.nodup hfi hfv hname
  exact hcfg (by rw [← hci, ← hcv, this])

theorem toRow_store (config : SCDConfig) (data : Record) (fi fv : StructField) (v : Int)
    (hi : (schemaFields data).find? (fun g => decide (g.dbName = config.IDColumn)) = some fi)
    (hv : (schemaFields data).find? (fun g => decide (g.dbName = config.VersionColumn)) = some fv) :
    toRow config (data.store fv.name (.int v))
      = some ⟨storedId fi fv v, v, payloadOf config data⟩ := by
  simp only [toRow, columnValue_store, hi, hv, Option.map_some', if_true,
    payloadOf_store config data fv _ hv, storedId]

/-! ## Normal form of the write path -/

theorem writeBody_eq (config : SCDConfig) (data : Record) (tx : DB) (fi fv : StructField)
    (hi : (schemaFields data).find? (fun g => decide (g.dbName = config.IDColumn)) = some fi)
    (hv : (schemaFields data).find? (fun g => decide (g.dbName = config.VersionColumn)) = some fv) :
    writeBody config data tx =
      match Scan tx fi.value with
      | .error e => ⟨.error e, tx, data, [.selectMax fi.value]⟩
      | .panic p => ⟨.panic p, tx, data, [.selectMax fi.value]⟩
      | .ok m =>
        if assignableTo .int fv.typ then
          match Create config tx (data.store fv.name (.int (addInt m 1))) with
          | .error e => ⟨.error e, tx, data.store fv.name (.int (addInt m 1)),
              [.selectMax fi.value, .insert (data.store fv.name (.int (addInt m 1)))]⟩
          | .panic p => ⟨.panic p, tx, data.store fv.name (.int (addInt m 1)),
              [.selectMax fi.value, .insert (data.store fv.name (.int (addInt m 1)))]⟩
          | .ok (tx2, stored) => ⟨.ok (), tx2, stored,
              [.selectMax fi.value, .insert (data.store fv.name (.int (addInt m 1)))]⟩
        else ⟨.panic "reflect.Set: value is not assignable to field type", tx, data,
          [.selectMax fi.value]⟩ := by
  obtain ⟨_, hei, _, hgi⟩ := schema_field_spec data _ fi hi
  obtain ⟨_, hev, _, hgv⟩ := schema_field_spec data _ fv hv
  simp only [writeBody, getStructFieldName, hi, hv, getFieldValue, hgi, hei, if_true,
    setFieldValue, hgv, canSet, hev, Bool.not_true, reflectSet, GoValue.typeOf]
  cases hs : Scan tx fi.value with
  | error e => simp
  | panic p => simp
  | ok m =>
    by_cases ha : assignableTo GoType.int fv.typ = true
    · simp only [ha, if_true, Bool.false_eq_true, if_false]
    · simp [ha]

/-! ## Primary keys -/

theorem find_store (data : Record) (n : String) (w : GoValue) (p : StructField → Bool)
    (hp : ∀ f : StructField, p (if f.name = n then { f with value := w } else f) = p f) :
    (schemaFields (data.store n w)).find? p
      = ((schemaFields data).find? p).map
          (fun f => if f.name = n then { f with value := w } else f) := by
  rw [schemaFields_store, List.find?_map]
  have : (p ∘ fun f : StructField => if f.name = n then { f with value := w } else f) = p := by
    funext f
    exact hp f
  rw [this]

theorem autoKey_store (data : Record) (n : String) (w : GoValue) :
    autoKey (data.store n w)
      = (autoKey data).map (fun f => if f.name = n then { f with value := w } else f) := by
  unfold autoKey
  apply find_store
  intro f
  by_cases h : f.name = n <;> simp [h]

theorem keyNotColumn_store (data : Record) (n : String) (w : GoValue) (col : String) :
    keyNotColumn (data.store n w) col = keyNotColumn data col := by
  unfold keyNotColumn
  rw [autoKey_store]
  cases autoKey data with
  | none => rfl
  | some f => by_cases h : f.name = n <;> simp [h]

theorem autoKey_mem (data : Record) (f : StructField) (h : autoKey data = some f) :
    f ∈ data.fields := by
  have := List.mem_of_find?_eq_some h
  exact (List.mem_filter.mp this).1

/-- What a successful key assignment did: nothing, or it stored the generated
key in the zero auto-increment field. -/
theorem assignKey_ok (config : SCDConfig) (tx : DB) (r keyed : Record)
    (h : assignKey config tx r = .ok keyed) :
    keyed = r ∨
    ∃ f, autoKey r = some f ∧ isZeroKey f.value = true ∧
      nextKey config tx.rows f.dbName ≤ maxInt ∧
      keyed = r.store f.name (keyValue f.typ (nextKey config tx.rows f.dbName)) := by
  unfold assignKey at h
  cases hk : autoKey r with
  | none =>
    simp only [hk] at h
    injection h with h
    exact Or.inl h.symm
  | some f =>
    simp only [hk] at h
    by_cases hz : isZeroKey f.value = true
    · simp only [hz, if_true] at h
      by_cases hn : nextKey config tx.rows f.dbName ≤ maxInt
      · simp only [hn, if_true] at h
        injection h with h
        exact Or.inr ⟨f, rfl, hz, hn, h.symm⟩
      · simp [hn] at h
    · simp only [hz, Bool.false_eq_true, if_false] at h
      by_cases ht : keyTaken config tx.rows f.dbName f.value = true
      · simp [ht] at h
      · simp only [ht, Bool.false_eq_true, if_false] at h
        injection h with h
        exact Or.inl h.symm

theorem assignKey_error (config : SCDConfig) (tx : DB) (r : Record) (e : Error)
    (h : assignKey config tx r = .error e) : ∃ msg, e = .storage msg := by
  unfold assignKey at h
  cases hk : autoKey r with
  | none => simp [hk] at h
  | some f =>
    simp only [hk] at h
    by_cases hz : isZeroKey f.value = true
    · simp only [hz, if_true] at h
      by_cases hn : nextKey config tx.rows f.dbName ≤ maxInt
      · simp [hn] at h
      · simp only [hn, if_false] at h
        injection h with h
        exact ⟨_, h.symm⟩
    · simp only [hz, Bool.false_eq_true, if_false] at h
      by_cases ht : keyTaken config tx.rows f.dbName f.value = true
      · simp only [ht, if_true] at h
        injection h with h
        exact ⟨_, h.symm⟩
      · simp [ht] at h

theorem assignKey_not_panic (config : SCDConfig) (tx : DB) (r : Record) (p : String) :
    assignKey config tx r ≠ .panic p := by
  unfold assignKey
  cases hk : autoKey r with
  | none => simp
  | some f =>
    simp only
    by_cases hz : isZeroKey f.value = true
    · by_cases hn : nextKey config tx.rows f.dbName ≤ maxInt <;> simp [hz, hn]
    · by_cases ht : keyTaken config tx.rows f.dbName f.value = true <;> simp [hz, ht]

theorem assignKey_of_no_key (config : SCDConfig) (tx : DB) (r : Record)
    (h : autoKey r = none) : assignKey config tx r = .ok r := by
  simp [assignKey, h]

/-- A column that the auto-increment key is not mapped to is left alone. -/
theorem assignKey_columnValue (config : SCDConfig) (tx : DB) (r keyed : Record) (col : String)
    (h : assignKey config tx r = .ok keyed) (hk : keyNotColumn r col = true) :
    columnValue keyed col = columnValue r col := by
  rcases assignKey_ok config tx r keyed h with rfl | ⟨f, hf, _, _, rfl⟩
  · rfl
  · rw [columnValue_store]
    unfold columnValue
    cases hg : (schemaFields r).find? (fun g => decide (g.dbName = col)) with
    | none => rfl
    | some g =>
      obtain ⟨hgm, _, hgc, _⟩ := schema_field_spec r col g hg
      have hne : g.name ≠ f.name := by
        intro hname
        have : g = f := List.inj_on_of_nodup_map r.nodup hgm (autoKey_mem r f hf) hname
        simp only [keyNotColumn, hf, decide_eq_true_eq] at hk
        exact hk (this ▸ hgc)
      simp [hne]

/-- A version that is not zero is not taken for a key to generate. -/
theorem assignKey_version (config : SCDConfig) (tx : DB) (data keyed : Record)
    (fv : StructField) (v : Int) (hv0 : v ≠ 0)
    (hv : (schemaFields data).find? (fun g => decide (g.dbName = config.VersionColumn)) = some fv)
    (h : assignKey config tx (data.store fv.name (.int v)) = .ok keyed) :
    columnValue keyed config.VersionColumn = some (.int v) := by
  have hcol : columnValue (data.store fv.name (.int v)) config.VersionColumn = some (.int v) := by
    simp [columnValue_store, hv]
  rcases assignKey_ok config tx _ keyed h with rfl | ⟨f, hf, hz, _, rfl⟩
  · exact hcol
  · rw [columnValue_store]
    have hfind := find_store data fv.name (.int v)
      (fun g => decide (g.dbName = config.VersionColumn))
      (by intro g; by_cases hg : g.name = fv.name <;> simp [hg])
    rw [hfind, hv]
    simp only [Option.map_some', if_true]
    have hne : fv.name ≠ f.name := by
      intro hname
      rw [autoKey_store] at hf
      cases hk : autoKey data with
      | none => simp [hk] at hf
      | some f0 =>
        simp only [hk, Option.map_some', Option.some.injEq] at hf
        by_cases h0 : f0.name = fv.name
        · simp only [h0, if_true] at hf
          rw [← hf] at hz
          simp [isZeroKey, hv0] at hz
        · simp only [h0, if_false] at hf
          rw [← hf] at hname
          exact h0 hname.symm
    simp [hne]

theorem Create_ok (config : SCDConfig) (tx tx2 : DB) (r keyed : Record)
    (h : Create config tx r = .ok (tx2, keyed)) :
    tx.createFault = none ∧ assignKey config tx r = .ok keyed ∧
    ∃ row, toRow config keyed = some row ∧
      (tx.uniqueIndex = true → hasPair tx.rows row.id row.version = false) ∧
      tx2 = { tx with rows := tx.rows ++ [row] } := by
  unfold Create at h
  cases hc : tx.createFault with
  | some msg => simp [hc] at h
  | none =>
    simp only [hc] at h
    cases ha : assignKey config tx r with
    | error e => simp [ha] at h
    | panic p => simp [ha] at h
    | ok k =>
      simp only [ha] at h
      cases hr : toRow config k with
      | none => simp [hr] at h
      | some row =>
        simp only [hr] at h
        by_cases hp : (tx.uniqueIndex && hasPair tx.rows row.id row.version) = true
        · simp [hp] at h
        · simp only [hp, Bool.false_eq_true, if_false] at h
          injection h with h
          injection h with h1 h2
          subst h2
          refine ⟨rfl, rfl, row, hr, ?_, h1.symm⟩
          intro hu
          simpa [hu] using hp

theorem Create_of (config : SCDConfig) (tx : DB) (r keyed : Record) (row : Row)
    (hc : tx.createFault = none) (ha : assignKey config tx r = .ok keyed)
    (hr : toRow config keyed = some row)
    (hp : tx.uniqueIndex = true → hasPair tx.rows row.id row.version = false) :
    Create config tx r = .ok ({ tx with rows := tx.rows ++ [row] }, keyed) := by
  have hcond : (tx.uniqueIndex && hasPair tx.rows row.id row.version) = false := by
    cases hu : tx.uniqueIndex with
    | false => simp
    | true => simp [hp hu]
  simp [Create, hc, ha, hr, hcond]

/-- The insert is rejected by the unique index only for a pair the table holds. -/
theorem Create_uniqueViolation (config : SCDConfig) (tx : DB) (r : Record)
    (h : Create config tx r = .error .uniqueViolation) :
    ∃ keyed row, assignKey config tx r = .ok keyed ∧ toRow config keyed = some row ∧
      hasPair tx.rows row.id row.version = true := by
  unfold Create at h
  cases hc : tx.createFault with
  | some msg => simp [hc] at h
  | none =>
    simp only [hc] at h
    cases ha : assignKey config tx r with
    | error e =>
      simp only [ha] at h
      obtain ⟨msg, hmsg⟩ := assignKey_error config tx r e ha
      rw [hmsg] at h
      simp at h
    | panic p => simp [ha] at h
    | ok k =>
      simp only [ha] at h
      cases hr : toRow config k with
      | none => simp [hr] at h
      | some row =>
        simp only [hr] at h
        by_cases hp : (tx.uniqueIndex && hasPair tx.rows row.id row.version) = true
        · refine ⟨k, row, rfl, hr, ?_⟩
          simp only [Bool.and_eq_true] at hp
          exact hp.2
        · simp [hp] at h

theorem Create_error_not_columnNotFound (config : SCDConfig) (tx : DB) (r : Record)
    (c : String) : Create config tx r ≠ .error (.columnNotFound c) := by
  unfold Create
  cases hc : tx.createFault with
  | some msg => simp
  | none =>
    simp only
    cases ha : assignKey config tx r with
    | error e =>
      obtain ⟨msg, hmsg⟩ := assignKey_error config tx r e ha
      simp [hmsg]
    | panic p => simp
    | ok k =>
      simp only
      cases hr : toRow config k with
      | none => simp
      | some row =>
        by_cases hp : (tx.uniqueIndex && hasPair tx.rows row.id row.version) = true
        · simp [hp]
        · simp [hp]

theorem getValue_store_same (data : Record) (fieldName : String) (value : GoValue)
    (f : StructField) (hf : getValue data fieldName = some f) :
    getValue (data.store fieldName value) fieldName = some { f with value := value } := by
  have hname : f.name = fieldName := by simpa using List.find?_some hf
  simp only [getValue, Record.store, storeField, List.find?_map] at hf ⊢
  have hp : ((fun g : StructField => decide (g.name = fieldName)) ∘
      (fun g : StructField => if g.name = fieldName then { g with value := value } else g))
      = (fun g : StructField => decide (g.name = fieldName)) := by
    funext g
    by_cases h : g.name = fieldName <;> simp [h]
  rw [hp, hf]
  simp [hname]

theorem getValue_store_other (data : Record) (fieldName other : String) (value : GoValue)
    (hne : other ≠ fieldName) :
    getValue (data.store fieldName value) other = getValue data other := by
  simp only [getValue, Record.store, storeField, List.find?_map]
  have hp : ((fun g : StructField => decide (g.name = other)) ∘
      (fun g : StructField => if g.name = fieldName then { g with value := value } else g))
      = (fun g : StructField => decide (g.name = other)) := by
    funext g
    by_cases h : g.name = fieldName <;> simp [h]
  rw [hp]
  cases hfind : List.find? (fun g : StructField => decide (g.name = other)) data.fields with
  | none => rfl
  | some g =>
    have hname : g.name = other := by simpa using List.find?_some hfind
    have : ¬ g.name = fieldName := fun h => hne (hname ▸ h)
    simp [this]

theorem toRow_some (config : SCDConfig) (r : Record) (row : Row)
    (h : toRow config r = some row) :
    columnValue r config.IDColumn = some row.id ∧
    columnValue r config.VersionColumn = some (.int row.version) := by
  unfold toRow at h
  split at h
  · rename_i uid v h1 h2
    injection h with h
    subst h
    exact ⟨h1, h2⟩
  · cases h

/-! ## Lemmas on Go `int` arithmetic -/

theorem wrapInt_of_range (n : Int) (h1 : minInt ≤ n) (h2 : n ≤ maxInt) : wrapInt n = n := by
  simp only [wrapInt, minInt, maxInt] at *
  omega

theorem wrapInt_range (n : Int) : minInt ≤ wrapInt n ∧ wrapInt n ≤ maxInt := by
  simp only [wrapInt, minInt, maxInt]
  omega

theorem addInt_one (m : Int) (h1 : minInt ≤ m) (h2 : m < maxInt) : addInt m 1 = m + 1 := by
  unfold addInt
  apply wrapInt_of_range <;> simp only [minInt, maxInt] at * <;> omega

theorem addInt_maxInt : addInt maxInt 1 = minInt := by
  simp only [addInt, wrapInt, minInt, maxInt]
  omega

/-! ## Outcome of `Write` -/

theorem Write_columnNotFound_id (s : SCD) (data : Record)
    (hi : (schemaFields data).find? (fun g => decide (g.dbName = s.config.IDColumn)) = none) :
    Write s data = ⟨.error (.columnNotFound s.config.IDColumn), s.db, data, []⟩ := by
  simp [Write, Transaction, writeBody, getStructFieldName, hi]

theorem Write_columnNotFound_version (s : SCD) (data : Record) (fi : StructField)
    (hi : (schemaFields data).find? (fun g => decide (g.dbName = s.config.IDColumn)) = some fi)
    (hv : (schemaFields data).find? (fun g => decide (g.dbName = s.config.VersionColumn)) = none) :
    Write s data = ⟨.error (.columnNotFound s.config.VersionColumn), s.db, data, []⟩ := by
  simp [Write, Transaction, writeBody, getStructFieldName, hi, hv]

/-- The write path unfolded, for a record that has both configured columns. -/
theorem Write_eq (s : SCD) (data : Record) (fi fv : StructField)
    (hi : (schemaFields data).find? (fun g => decide (g.dbName = s.config.IDColumn)) = some fi)
    (hv : (schemaFields data).find? (fun g => decide (g.dbName = s.config.VersionColumn)) = some fv) :
    Write s data =
      match s.db.scanFault with
      | some msg => ⟨.error (.storage msg), s.db, data, [.selectMax fi.value]⟩
      | none =>
        if minInt ≤ selectMaxVersion s.db.rows fi.value ∧
            selectMaxVersion s.db.rows fi.value ≤ maxInt then
          if assignableTo .int fv.typ then
            match Create s.config s.db
                (data.store fv.name (.int (addInt (selectMaxVersion s.db.rows fi.value) 1))) with
            | .error e =>
              ⟨.error e, s.db,
                data.store fv.name (.int (addInt (selectMaxVersion s.db.rows fi.value) 1)),
                [.selectMax fi.value, .insert
                  (data.store fv.name (.int (addInt (selectMaxVersion s.db.rows fi.value) 1)))]⟩
            | .panic p =>
              ⟨.panic p, s.db,
                data.store fv.name (.int (addInt (selectMaxVersion s.db.rows fi.value) 1)),
                [.selectMax fi.value, .insert
                  (data.store fv.name (.int (addInt (selectMaxVersion s.db.rows fi.value) 1)))]⟩
            | .ok (tx2, stored) =>
              ⟨.ok (), tx2, stored,
                [.selectMax fi.value, .insert
                  (data.store fv.name (.int (addInt (selectMaxVersion s.db.rows fi.value) 1)))]⟩
          else ⟨.panic "reflect.Set: value is not assignable to field type", s.db, data,
            [.selectMax fi.value]⟩
        else ⟨.error (.storage "converting driver.Value to int: value out of range"), s.db, data,
          [.selectMax fi.value]⟩ := by
  simp only [Write, Transaction, writeBody_eq s.config data s.db fi fv hi hv, Scan]
  cases hscan : s.db.scanFault with
  | some msg => simp
  | none =>
    by_cases hr : minInt ≤ selectMaxVersion s.db.rows fi.value ∧
        selectMaxVersion s.db.rows fi.value ≤ maxInt
    · simp only [hr, and_self, if_true]
      by_cases ha : assignableTo GoType.int fv.typ = true
      · simp only [ha, if_true]
        cases hc : Create s.config s.db
            (data.store fv.name (.int (addInt (selectMaxVersion s.db.rows fi.value) 1))) with
        | error e => simp
        | panic p => simp
        | ok pair => simp
      · simp [ha]
    · simp [hr]

/-- Sufficient conditions for `Write` to succeed, with everything it leaves behind. -/
theorem Write_ok_of (s : SCD) (data : Record) (fi fv : StructField) (keyed : Record) (row : Row)
    (hi : (schemaFields data).find? (fun g => decide (g.dbName = s.config.IDColumn)) = some fi)
    (hv : (schemaFields data).find? (fun g => decide (g.dbName = s.config.VersionColumn)) = some fv)
    (hscan : s.db.scanFault = none)
    (hmin : minInt ≤ selectMaxVersion s.db.rows fi.value)
    (hmax : selectMaxVersion s.db.rows fi.value ≤ maxInt)
    (hassign : assignableTo .int fv.typ = true)
    (hcreate : s.db.createFault = none)
    (hkey : assignKey s.config s.db
      (data.store fv.name (.int (addInt (selectMaxVersion s.db.rows fi.value) 1))) = .ok keyed)
    (hrow : toRow s.config keyed = some row)
    (hpair : s.db.uniqueIndex = true → hasPair s.db.rows row.id row.version = false) :
    Write s data =
      ⟨.ok (), { s.db with rows := s.db.rows ++ [row] }, keyed,
       [.selectMax fi.value,
        .insert (data.store fv.name (.int (addInt (selectMaxVersion s.db.rows fi.value) 1)))]⟩ := by
  rw [Write_eq s data fi fv hi hv]
  simp only [hscan, hmin, hmax, and_self, if_true, hassign,
    Create_of s.config s.db _ keyed row hcreate hkey hrow hpair]

/-- What a successful `Write` did. -/
theorem Write_ok_inv (s : SCD) (data : Record) (h : (Write s data).err = .ok ()) :
    ∃ fi fv keyed row,
      (schemaFields data).find? (fun g => decide (g.dbName = s.config.IDColumn)) = some fi ∧
      (schemaFields data).find? (fun g => decide (g.dbName = s.config.VersionColumn)) = some fv ∧
      s.db.scanFault = none ∧
      minInt ≤ selectMaxVersion s.db.rows fi.value ∧
      selectMaxVersion s.db.rows fi.value ≤ maxInt ∧
      assignableTo .int fv.typ = true ∧
      s.db.createFault = none ∧
      assignKey s.config s.db
        (data.store fv.name (.int (addInt (selectMaxVersion s.db.rows fi.value) 1))) = .ok keyed ∧
      toRow s.config keyed = some row ∧
      (s.db.uniqueIndex = true → hasPair s.db.rows row.id row.version = false) ∧
      (Write s data).db = { s.db with rows := s.db.rows ++ [row] } ∧
      (Write s data).record = keyed := by
  cases hi : (schemaFields data).find? (fun g => decide (g.dbName = s.config.IDColumn)) with
  | none => rw [Write_columnNotFound_id s data hi] at h; simp at h
  | some fi =>
    cases hv : (schemaFields data).find?
        (fun g => decide (g.dbName = s.config.VersionColumn)) with
    | none => rw [Write_columnNotFound_version s data fi hi hv] at h; simp at h
    | some fv =>
      rw [Write_eq s data fi fv hi hv] at h
      cases hscan : s.db.scanFault with
      | some msg => simp [hscan] at h
      | none =>
        simp only [hscan] at h
        by_cases hr : minInt ≤ selectMaxVersion s.db.rows fi.value ∧
            selectMaxVersion s.db.rows fi.value ≤ maxInt
        · simp only [hr, and_self, if_true] at h
          by_cases ha : assignableTo GoType.int fv.typ = true
          · simp only [ha, if_true] at h
            cases hc : Create s.config s.db
                (data.store fv.name (.int (addInt (selectMaxVersion s.db.rows fi.value) 1))) with
            | error e => simp [hc] at h
            | panic p => simp [hc] at h
            | ok pair =>
              obtain ⟨tx2, keyed⟩ := pair
              obtain ⟨hcf, hak, row, hrow, hp, htx⟩ := Create_ok s.config s.db tx2 _ keyed hc
              have hW := Write_ok_of s data fi fv keyed row hi hv hscan hr.1 hr.2 ha hcf hak
                hrow hp
              refine ⟨fi, fv, keyed, row, rfl, rfl, rfl, hr.1, hr.2, ha, hcf, hak, hrow, hp,
                ?_, ?_⟩
              · rw [hW]
              · rw [hW]
          · simp [ha] at h
        · simp [hr] at h

theorem columnValue_eq_some (data : Record) (col : String) (i : GoValue) (fi : StructField)
    (hi : (schemaFields data).find? (fun g => decide (g.dbName = col)) = some fi)
    (hid : columnValue data col = some i) : fi.value = i := by
  simpa [columnValue, hi] using hid

theorem selectMaxVersion_of_isMaxOrZero (rows : List Row) (i : GoValue) (m : Int)
    (h : IsMaxOrZero rows i m) : selectMaxVersion rows i = m := by
  rcases h with ⟨h1, h2⟩ | ⟨h1, h2⟩
  · exact selectMaxVersion_eq rows i m h1 h2
  · rw [h2]; exact selectMaxVersion_of_empty rows i h1

/-- Why the version column must not be the generated key: a version of 0 is
taken by gorm for a key to generate, and the record ends up with the key. -/
theorem generated_version_key_overrides :
    (Write ⟨healthyDB [⟨.str "u1", -1, []⟩], userConfig⟩ (TicketSCD "u1")).err = .ok () ∧
    selectMaxVersion [⟨.str "u1", -1, []⟩] (.str "u1") = -1 ∧
    columnValue (Write ⟨healthyDB [⟨.str "u1", -1, []⟩], userConfig⟩ (TicketSCD "u1")).record
      "version" = some (.int 1) := by
  refine ⟨by decide, by decide, by decide⟩

/-! ## Schema accessor: `setFieldValue` -/

/-- The cases `setFieldValue` guards: a missing field and an unexported field
get an error, and a value whose type is assignable to the type of an exported
field is stored, the other fields being left alone. -/
theorem setFieldValue_guards (data : Record) (fieldName : String) (value : GoValue) :
    (getValue data fieldName = none →
      setFieldValue data fieldName value = .error (.fieldNotFound fieldName)) ∧
    (∀ f, getValue data fieldName = some f → f.exported = false →
      setFieldValue data fieldName value = .error (.cannotSet fieldName)) ∧
    (∀ f vt, getValue data fieldName = some f → f.exported = true →
      value.typeOf = some vt → assignableTo vt f.typ = true →
      setFieldValue data fieldName value = .ok (data.store fieldName value) ∧
      getValue (data.store fieldName value) fieldName = some { f with value := value } ∧
      ∀ other, other ≠ fieldName →
        getValue (data.store fieldName value) other = getValue data other) := by
  refine ⟨?_, ?_, ?_⟩
  · intro h
    simp [setFieldValue, h]
  · intro f h hex
    simp [setFieldValue, h, canSet, hex]
  · intro f vt h hex hty hassign
    have hname : f.name = fieldName := by simpa [getValue] using List.find?_some h
    refine ⟨?_, getValue_store_same data fieldName value f h,
      fun other hne => getValue_store_other data fieldName other value hne⟩
    subst hname
    simp [setFieldValue, h, canSet, hex, reflectSet, hty, hassign]

/-- The case `setFieldValue` does not guard: on an exported field, a nil value
or a value whose type is not assignable to the field type makes it panic. -/
theorem setFieldValue_unguarded (data : Record) (fieldName : String) (value : GoValue)
    (f : StructField) (h : getValue data fieldName = some f) (hex : f.exported = true)
    (hbad : value.typeOf = none ∨ ∃ vt, value.typeOf = some vt ∧ assignableTo vt f.typ = false) :
    ∃ msg, setFieldValue data fieldName value = .panic msg := by
  rcases hbad with hnil | ⟨vt, hty, hna⟩
  · simp [setFieldValue, h, canSet, hex, reflectSet, hnil]
  · simp [setFieldValue, h, canSet, hex, reflectSet, hty, hna]

/-! ## Write and errors -/

theorem Transaction_rollback (db : DB) (fc : DB → WriteResult)
    (h : ∀ u, (Transaction db fc).err ≠ .ok u) : (Transaction db fc).db = db := by
  simp only [Transaction] at *
  cases hr : (fc db).err with
  | ok u => simp [hr] at h
  | error e => rfl
  | panic p => rfl

theorem Write_err_not_columnNotFound (s : SCD) (data : Record) (fi fv : StructField) (c : String)
    (hi : (schemaFields data).find? (fun g => decide (g.dbName = s.config.IDColumn)) = some fi)
    (hv : (schemaFields data).find? (fun g => decide (g.dbName = s.config.VersionColumn)) = some fv) :
    (Write s data).err ≠ .error (.columnNotFound c) := by
  rw [Write_eq s data fi fv hi hv]
  cases hscan : s.db.scanFault with
  | some msg => simp
  | none =>
    by_cases hr : minInt ≤ selectMaxVersion s.db.rows fi.value ∧
        selectMaxVersion s.db.rows fi.value ≤ maxInt
    · simp only [hr, and_self, if_true]
      by_cases ha : assignableTo GoType.int fv.typ = true
      · simp only [ha, if_true]
        cases hc : Create s.config s.db
            (data.store fv.name (.int (addInt (selectMaxVersion s.db.rows fi.value) 1))) with
        | error e =>
          simp only
          intro he
          injection he with he
          exact Create_error_not_columnNotFound s.config s.db _ c (he ▸ hc)
        | panic p => simp
        | ok pair => simp
      · simp [ha]
    · simp [hr]

theorem hasPair_eq_false_of_lt (rows : List Row) (i : GoValue) (v : Int)
    (h : ∀ r ∈ rows, r.id = i → r.version < v) : hasPair rows i v = false := by
  unfold hasPair
  rw [List.any_eq_false]
  intro r hr
  simp only [Bool.and_eq_true, decide_eq_true_eq, not_and]
  intro hid hv
  have := h r hr hid
  omega

theorem version_lt_next (rows : List Row) (i : GoValue)
    (hmin : minInt ≤ selectMaxVersion rows i) (hmax : selectMaxVersion rows i < maxInt) :
    ∀ r ∈ rows, r.id = i → r.version < addInt (selectMaxVersion rows i) 1 := by
  intro r hr hid
  rw [addInt_one _ hmin hmax]
  have := le_selectMaxVersion rows i r.version ((mem_versionsOf _ _ _).mpr ⟨r, hr, hid, rfl⟩)
  omega

theorem hasPair_eq_false_of_ne (rows : List Row) (i : GoValue) (v : Int)
    (h : ∀ r ∈ rows, r.id = i → r.version ≠ v) : hasPair rows i v = false := by
  unfold hasPair
  rw [List.any_eq_false]
  intro r hr
  simp only [Bool.and_eq_true, decide_eq_true_eq, not_and]
  exact h r hr

theorem le_maxOf_getD (l : List Int) (k : Int) (hk : k ∈ l) : k ≤ (maxOf l).getD 0 := by
  cases h : maxOf l with
  | none => rw [(maxOf_eq_none_iff _).mp h] at hk; simp at hk
  | some m => exact ((maxOf_eq_some_iff _ _).mp h).2 k hk

/-- The key the database generates is held by no row. -/
theorem nextKey_fresh (config : SCDConfig) (rows : List Row) (column : String) (r : Row)
    (hr : r ∈ rows) :
    (rowColumn config r column).bind intOf ≠ some (nextKey config rows column) := by
  intro h
  have hmem : nextKey config rows column ∈ keyValues config rows column :=
    List.mem_filterMap.mpr ⟨r, hr, h⟩
  have hle := le_maxOf_getD _ _ hmem
  unfold nextKey at hle
  have := le_max_left ((maxOf (keyValues config rows column)).getD 0) 0
  omega

theorem intOf_keyValue (typ : GoType) (g : Int) : intOf (keyValue typ g) = some g := by
  unfold keyValue
  by_cases h : typ = GoType.int64 <;> simp [h, intOf]

/-- The row stored by the insert is new for the unique index: whether its
identity or its version is taken from the record or generated as a key, no
row of the table has that (identity, version) pair. -/
theorem keyed_pair_fresh (config : SCDConfig) (tx : DB) (data keyed : Record)
    (fi fv : StructField) (v : Int) (row : Row)
    (hcfg : config.IDColumn ≠ config.VersionColumn)
    (hi : (schemaFields data).find? (fun g => decide (g.dbName = config.IDColumn)) = some fi)
    (hv : (schemaFields data).find? (fun g => decide (g.dbName = config.VersionColumn)) = some fv)
    (hlt : ∀ r ∈ tx.rows, r.id = fi.value → r.version < v)
    (hak : assignKey config tx (data.store fv.name (.int v)) = .ok keyed)
    (hrow : toRow config keyed = some row) :
    hasPair tx.rows row.id row.version = false := by
  have hne : fi.name ≠ fv.name := field_names_ne config data fi fv hcfg hi hv
  have hplain : toRow config (data.store fv.name (.int v))
      = some ⟨fi.value, v, payloadOf config data⟩ := by
    rw [toRow_store config data fi fv v hi hv]
    simp [storedId, hne]
  obtain ⟨hrid, hrv⟩ := toRow_some config keyed row hrow
  rcases assignKey_ok config tx _ keyed hak with rfl | ⟨f, hf, _, _, rfl⟩
  · rw [hplain] at hrow
    injection hrow with hrow
    subst hrow
    exact hasPair_eq_false_of_lt _ _ _ hlt
  · have hfmem := autoKey_mem _ f hf
    have hfi2 := find_store data fv.name (.int v)
      (fun g => decide (g.dbName = config.IDColumn))
      (by intro g; by_cases hg : g.name = fv.name <;> simp [hg])
    have hfv2 := find_store data fv.name (.int v)
      (fun g => decide (g.dbName = config.VersionColumn))
      (by intro g; by_cases hg : g.name = fv.name <;> simp [hg])
    rw [hi] at hfi2
    rw [hv] at hfv2
    simp only [Option.map_some', hne, if_false, if_true] at hfi2 hfv2
    obtain ⟨hfim, _, hfic, _⟩ := schema_field_spec _ _ _ hfi2
    obtain ⟨hfvm, _, hfvc, _⟩ := schema_field_spec _ _ _ hfv2
    rw [columnValue_store, hfi2] at hrid
    rw [columnValue_store, hfv2] at hrv
    simp only [Option.map_some', Option.some.injEq] at hrid hrv
    by_cases hA : fi.name = f.name
    · have hfeq : fi = f :=
        List.inj_on_of_nodup_map (data.store fv.name (.int v)).nodup hfim hfmem hA
      have hB : ¬ fv.name = f.name := fun h => hne (hA.trans h.symm)
      simp only [hA, if_true] at hrid
      simp only [hB, if_false] at hrv
      apply hasPair_eq_false_of_ne
      intro r hr hrid2 _
      apply nextKey_fresh config tx.rows f.dbName r hr
      have hcol : f.dbName = config.IDColumn := by rw [← hfeq]; exact hfic
      rw [hcol]
      simp only [rowColumn, if_true, Option.some_bind]
      rw [hrid2, ← hrid, intOf_keyValue, hcol]
    · simp only [hA, if_false] at hrid
      by_cases hB : fv.name = f.name
      · have hfeq : ({ fv with value := GoValue.int v } : StructField) = f :=
          List.inj_on_of_nodup_map (data.store fv.name (.int v)).nodup hfvm hfmem hB
        have hcol : f.dbName = config.VersionColumn := by rw [← hfeq]; exact hfvc
        simp only [hB, if_true] at hrv
        have hg : row.version = nextKey config tx.rows f.dbName := by
          have h1 := intOf_keyValue f.typ (nextKey config tx.rows f.dbName)
          rw [hrv] at h1
          simpa [intOf] using h1
        apply hasPair_eq_false_of_ne
        intro r hr _ hrv2
        apply nextKey_fresh config tx.rows f.dbName r hr
        rw [hcol]
        have hvc : ¬ config.VersionColumn = config.IDColumn := fun h => hcfg h.symm
        simp only [rowColumn, hvc, if_false, if_true, Option.some_bind, intOf]
        rw [hrv2, hg, hcol]
      · simp only [hB, if_false] at hrv
        have hv2 : row.version = v := by
          injection hrv with h1
          exact h1.symm
        rw [← hrid, hv2]
        exact hasPair_eq_false_of_lt _ _ _ hlt

/-! ## The table after a successful Write -/

theorem versionsOf_append_new (rows : List Row) (i j : GoValue) (v : Int)
    (p : List (String × GoValue)) :
    versionsOf (rows ++ [⟨i, v, p⟩]) j
      = if i = j then versionsOf rows j ++ [v] else versionsOf rows j := by
  rw [versionsOf_append]
  by_cases h : i = j <;> simp [versionsOf, List.filter_cons, h]

theorem selectMaxVersion_append_new (rows : List Row) (i : GoValue) (v : Int)
    (p : List (String × GoValue)) (h : ∀ r ∈ rows, r.id = i → r.version < v) :
    selectMaxVersion (rows ++ [⟨i, v, p⟩]) i = v := by
  apply selectMaxVersion_eq
  · rw [versionsOf_append_new]; simp
  · intro x hx
    rw [versionsOf_append_new] at hx
    simp only [if_true, List.mem_append, List.mem_singleton] at hx
    rcases hx with hx | hx
    · obtain ⟨r, hr, hid, rfl⟩ := (mem_versionsOf _ _ _).mp hx
      exact le_of_lt (h r hr hid)
    · exact le_of_eq hx

/-- A successful Write for identity `i`, below the largest Go `int`, with
distinct identity and version columns neither of which receives a generated
key: the state it leaves behind. -/
theorem Write_ok_result (s : SCD) (data : Record) (i : GoValue)
    (hcfg : s.config.IDColumn ≠ s.config.VersionColumn)
    (hok : (Write s data).err = .ok ())
    (hid : columnValue data s.config.IDColumn = some i)
    (hmax : selectMaxVersion s.db.rows i < maxInt)
    (hkid : keyNotColumn data s.config.IDColumn = true)
    (hkv : selectMaxVersion s.db.rows i + 1 ≠ 0 ∨
      keyNotColumn data s.config.VersionColumn = true) :
    minInt ≤ selectMaxVersion s.db.rows i ∧
    ∃ row, row.id = i ∧ row.version = selectMaxVersion s.db.rows i + 1 ∧
      (Write s data).db = { s.db with rows := s.db.rows ++ [row] } ∧
      toRow s.config (Write s data).record = some row ∧
      columnValue (Write s data).record s.config.VersionColumn
        = some (.int (selectMaxVersion s.db.rows i + 1)) := by
  obtain ⟨fi, fv, keyed, row, hi, hv, hscan, hmin, hmx, hassign, hcreate, hak, hrow, hpair,
    hdb, hrec⟩ := Write_ok_inv s data hok
  have hfi : fi.value = i := columnValue_eq_some data _ i fi hi hid
  have hne : fi.name ≠ fv.name := field_names_ne s.config data fi fv hcfg hi hv
  rw [hfi] at hmin hak
  have hadd := addInt_one _ hmin hmax
  rw [hadd] at hak
  have hcid : columnValue keyed s.config.IDColumn = some i := by
    rw [assignKey_columnValue s.config s.db _ keyed _ hak
      (by rw [keyNotColumn_store]; exact hkid)]
    simp [columnValue_store, hi, hne, hfi]
  have hcv : columnValue keyed s.config.VersionColumn
      = some (.int (selectMaxVersion s.db.rows i + 1)) := by
    rcases hkv with h0 | hk
    · exact assignKey_version s.config s.db data keyed fv _ h0 hv hak
    · rw [assignKey_columnValue s.config s.db _ keyed _ hak
        (by rw [keyNotColumn_store]; exact hk)]
      simp [columnValue_store, hv]
  obtain ⟨h1, h2⟩ := toRow_some s.config keyed row hrow
  rw [hcid] at h1
  rw [hcv] at h2
  refine ⟨hmin, row, (Option.some.inj h1).symm, ?_, hdb, by rw [hrec]; exact hrow,
    by rw [hrec]; exact hcv⟩
  injection h2 with h3
  injection h3 with h4
  exact h4.symm

/-- After appending a row whose version exceeds every stored version of its
identity, the read query returns that row alone for the identity. -/
theorem readQuery_after_append (rows : List Row) (row : Row)
    (h : ∀ r ∈ rows, r.id = row.id → r.version < row.version) :
    ((rows ++ [row]).filter (fun r => ([] : List (Row → Bool)).all (fun f => f r) &&
        decide (IsCurrent (rows ++ [row]) r))).filter (fun x => decide (x.id = row.id))
      = [row] := by
  rw [List.filter_filter, List.filter_append]
  have h1 : rows.filter (fun a => decide (a.id = row.id) &&
      (([] : List (Row → Bool)).all (fun f => f a) &&
        decide (IsCurrent (rows ++ [row]) a))) = [] := by
    rw [List.filter_eq_nil_iff]
    intro r hr hcond
    simp only [List.all_nil, Bool.true_and, Bool.and_eq_true, decide_eq_true_eq] at hcond
    have hle := hcond.2 row (by simp) hcond.1.symm
    have hlt := h r hr hcond.1
    omega
  have h2 : IsCurrent (rows ++ [row]) row := by
    intro y hy hyid
    rcases List.mem_append.mp hy with hy | hy
    · exact le_of_lt (h y hy hyid)
    · rw [List.mem_singleton.mp hy]
  rw [h1]
  simp [List.filter_cons, h2]

/-- Why the identity column must not be the generated key: the record holds
identity 0 on entry, the row is stored under the key the database generates,
and a second Write for identity 0 finds no earlier version. -/
theorem generated_identity_restarts_versions :
    (WriteAll ⟨healthyDB [], keyConfig⟩
        [UserSCD "u1" 0 "a" "active", UserSCD "u2" 0 "b" "active"]).map
        (fun w => (w.err, columnValue w.record "id", columnValue w.record "version"))
      = [(.ok (), some (.int 1), some (.int 1)), (.ok (), some (.int 2), some (.int 1))] ∧
    Read ⟨(Write ⟨healthyDB [], keyConfig⟩ (UserSCD "u1" 0 "a" "active")).db, keyConfig⟩ []
      = .ok [⟨.int 1, 1, [("user_id", .str "u1"), ("name", .str "a"),
          ("status", .str "active")]⟩] := by
  refine ⟨by decide, by decide⟩

/-! ## Sequences of Writes -/

theorem writeAll_versions_from (config : SCDConfig)
    (hcfg : config.IDColumn ≠ config.VersionColumn) (i : GoValue) :
    ∀ (recs : List Record) (db : DB) (m0 : Int),
      selectMaxVersion db.rows i = m0 → 0 ≤ m0 → m0 + recs.length ≤ maxInt →
      (∀ d ∈ recs, columnValue d config.IDColumn = some i) →
      (∀ d ∈ recs, keyNotColumn d config.IDColumn = true) →
      (∀ w ∈ WriteAll ⟨db, config⟩ recs, w.err = .ok ()) →
      (WriteAll ⟨db, config⟩ recs).map (fun w => columnValue w.record config.VersionColumn)
        = (List.range' 1 recs.length).map (fun k : Nat => some (GoValue.int (m0 + k))) := by
  intro recs
  induction recs with
  | nil => intro db m0 _ _ _ _ _ _; simp [WriteAll]
  | cons d ds ih =>
    intro db m0 hm0 hpos hlen hids hkeys hok
    have hok1 : (Write ⟨db, config⟩ d).err = .ok () :=
      hok _ (by simp [WriteAll])
    have hid1 := hids d (List.mem_cons_self _ _)
    have hk1 := hkeys d (List.mem_cons_self _ _)
    have hlen2 : m0 + (ds.length : Int) + 1 ≤ maxInt := by
      simp only [List.length_cons, Nat.cast_add, Nat.cast_one] at hlen
      omega
    have hlt : selectMaxVersion db.rows i < maxInt := by
      have : (0 : Int) ≤ ds.length := Int.ofNat_nonneg _
      omega
    obtain ⟨hmin, row, hrid, hrv, hdb, _, hcol⟩ :=
      Write_ok_result ⟨db, config⟩ d i hcfg hok1 hid1 hlt hk1 (Or.inl (by simp only; omega))
    simp only at hdb hcol hmin hrv
    have hnext : selectMaxVersion (Write ⟨db, config⟩ d).db.rows i = m0 + 1 := by
      rw [hdb]
      have hrow : row = ⟨i, m0 + 1, row.payload⟩ := by
        rw [hm0] at hrv
        cases row
        simp only [Row.mk.injEq, and_true]
        exact ⟨hrid, hrv⟩
      rw [hrow]
      apply selectMaxVersion_append_new
      intro r hr hrid
      have := le_selectMaxVersion db.rows i r.version
        ((mem_versionsOf _ _ _).mpr ⟨r, hr, hrid, rfl⟩)
      omega
    have htail := ih (Write ⟨db, config⟩ d).db (m0 + 1) hnext (by omega) (by omega)
      (fun e he => hids e (List.mem_cons_of_mem _ he))
      (fun e he => hkeys e (List.mem_cons_of_mem _ he))
      (fun w hw => hok w (by simp only [WriteAll]; exact List.mem_cons_of_mem _ hw))
    simp only [WriteAll, List.map_cons, List.length_cons, List.range'_succ, htail, hcol, hm0]
    congr 1
    rw [← List.map_add_range' 1 1 ds.length 1, List.map_map]
    apply List.map_congr_left
    intro k _
    simp only [Function.comp, Nat.cast_add, Nat.cast_one]
    congr 2
    omega

/-- Every successful Write of a model without generated key leaves a Go `int`
in the version field. -/
theorem writeAll_version_le (config : SCDConfig) :
    ∀ (recs : List Record) (db : DB), (∀ d ∈ recs, autoKey d = none) →
      ∀ w ∈ WriteAll ⟨db, config⟩ recs, w.err = .ok () →
      ∃ v : Int, columnValue w.record config.VersionColumn = some (.int v) ∧ v ≤ maxInt := by
  intro recs
  induction recs with
  | nil => intro db _ w hw; simp [WriteAll] at hw
  | cons d ds ih =>
    intro db hkeys w hw hok
    simp only [WriteAll, List.mem_cons] at hw
    rcases hw with rfl | hw
    · obtain ⟨fi, fv, keyed, row, hi, hv, _, _, _, _, _, hak, _, _, _, hrec⟩ :=
        Write_ok_inv ⟨db, config⟩ d hok
      have hnk : autoKey (d.store fv.name
          (.int (addInt (selectMaxVersion db.rows fi.value) 1))) = none := by
        rw [autoKey_store, hkeys d (List.mem_cons_self _ _)]
        rfl
      rw [assignKey_of_no_key _ _ _ hnk] at hak
      injection hak with hak
      rw [hrec, ← hak]
      refine ⟨addInt (selectMaxVersion db.rows fi.value) 1, ?_, (wrapInt_range _).2⟩
      simp only [columnValue_store]
      simp only at hv
      rw [hv]
      simp
    · exact ih _ (fun e he => hkeys e (List.mem_cons_of_mem _ he)) w hw hok

/-- From a healthy table whose rows of identity `i` carry versions 1..j, the
next `n` Writes of a well-formed record without generated key all succeed as
long as `j + n ≤ 2^63`. -/
theorem writeAll_replicate_ok (config : SCDConfig) (d : Record) (fi fv : StructField)
    (hi : (schemaFields d).find? (fun g => decide (g.dbName = config.IDColumn)) = some fi)
    (hv : (schemaFields d).find? (fun g => decide (g.dbName = config.VersionColumn)) = some fv)
    (hne : fi.name ≠ fv.name) (hassign : assignableTo .int fv.typ = true)
    (hkey : autoKey d = none) :
    ∀ (n : Nat) (db : DB) (j : Int), db.scanFault = none → db.createFault = none →
      0 ≤ j → selectMaxVersion db.rows fi.value = j →
      (∀ r ∈ db.rows, r.id = fi.value → 1 ≤ r.version) →
      j + n ≤ maxInt + 1 →
      ∀ w ∈ WriteAll ⟨db, config⟩ (List.replicate n d), w.err = .ok () := by
  intro n
  induction n with
  | zero => intro db j _ _ _ _ _ _ w hw; simp [WriteAll] at hw
  | succ n ih =>
    intro db j hscan hcreate hj hsel hpos hbound w hw
    have hjmax : j ≤ maxInt := by
      have : (0 : Int) ≤ n := Int.ofNat_nonneg _
      push_cast at hbound
      omega
    have hjmin : minInt ≤ j := by
      have : minInt ≤ 0 := by decide
      omega
    have hnk : autoKey (d.store fv.name (.int (addInt j 1))) = none := by
      rw [autoKey_store, hkey]
      rfl
    have hrow : toRow config (d.store fv.name (.int (addInt j 1)))
        = some ⟨fi.value, addInt j 1, payloadOf config d⟩ := by
      rw [toRow_store config d fi fv _ hi hv]
      simp [storedId, hne]
    have hpair : (⟨db, config⟩ : SCD).db.uniqueIndex = true →
        hasPair db.rows fi.value (addInt j 1) = false := by
      intro _
      apply hasPair_eq_false_of_ne
      intro r hr hrid
      have h1 := hpos r hr hrid
      have h2 := le_selectMaxVersion db.rows fi.value r.version
        ((mem_versionsOf _ _ _).mpr ⟨r, hr, hrid, rfl⟩)
      rw [hsel] at h2
      by_cases hlt : j < maxInt
      · rw [addInt_one j hjmin hlt]; omega
      · have : j = maxInt := le_antisymm hjmax (not_lt.mp hlt)
        rw [this, addInt_maxInt]
        have : minInt < 1 := by decide
        omega
    have hW := Write_ok_of ⟨db, config⟩ d fi fv (d.store fv.name (.int (addInt j 1)))
      ⟨fi.value, addInt j 1, payloadOf config d⟩ hi hv hscan (by rw [hsel]; exact hjmin)
      (by rw [hsel]; exact hjmax) hassign hcreate
      (by rw [hsel]; exact assignKey_of_no_key _ _ _ hnk) hrow hpair
    simp only [List.replicate_succ, WriteAll, List.mem_cons] at hw
    rcases hw with rfl | hw
    · rw [hW]
    · cases n with
      | zero => simp [WriteAll] at hw
      | succ k =>
        have hlt : j < maxInt := by
          have : (0 : Int) ≤ k := Int.ofNat_nonneg _
          push_cast at hbound
          omega
        have hnext : addInt j 1 = j + 1 := addInt_one j hjmin hlt
        rw [hW] at hw
        simp only [hnext] at hw
        refine ih ⟨db.rows ++ [⟨fi.value, j + 1, payloadOf config d⟩], db.uniqueIndex,
          db.scanFault, db.createFault, db.findFault⟩ (j + 1) hscan hcreate (by omega)
          ?_ ?_ ?_ w hw
        · apply selectMaxVersion_append_new
          intro r hr hrid
          have h2 := le_selectMaxVersion db.rows fi.value r.version
            ((mem_versionsOf _ _ _).mpr ⟨r, hr, hrid, rfl⟩)
          omega
        · intro r hr hrid
          rcases List.mem_append.mp hr with hr | hr
          · exact hpos r hr hrid
          · rw [List.mem_singleton.mp hr]
            show 1 ≤ j + 1
            omega
        · push_cast at hbound ⊢
          omega

/-- Why the number of Writes is bounded: from the empty table, 2^63 Writes for
the identity "t1" made one after another all succeed, yet the versions they
assign are not 1, 2, ..., 2^63, Go `int` having wrapped at the last one. -/
theorem sequential_writes_wrap :
    (∀ w ∈ WriteAll ⟨healthyDB [], userConfig⟩
        (List.replicate 9223372036854775808 (EventSCD "t1" 0)),
      w.err = .ok ()) ∧
    (WriteAll ⟨healthyDB [], userConfig⟩
        (List.replicate 9223372036854775808 (EventSCD "t1" 0))).map
        (fun w => columnValue w.record userConfig.VersionColumn)
      ≠ (List.range' 1 9223372036854775808).map (fun k : Nat => some (GoValue.int k)) := by
  have hall := writeAll_replicate_ok userConfig (EventSCD "t1" 0)
    ⟨"UserID", "user_id", .string, .str "t1", true, false⟩
    ⟨"Version", "version", .int, .int 0, true, false⟩
    (by decide) (by decide) (by decide) (by decide) (by decide)
    9223372036854775808 (healthyDB []) 0 rfl rfl le_rfl (by decide)
    (by intro r hr; cases hr) (by decide)
  refine ⟨hall, ?_⟩
  intro heq
  have hmem : some (GoValue.int ((9223372036854775808 : Nat) : Int)) ∈
      (List.range' 1 9223372036854775808).map (fun k : Nat => some (GoValue.int k)) :=
    List.mem_map.mpr ⟨9223372036854775808,
      List.mem_range'_1.mpr ⟨by decide, by decide⟩, rfl⟩
  rw [← heq] at hmem
  obtain ⟨w, hw, hcol⟩ := List.mem_map.mp hmem
  have hkeys : ∀ d ∈ List.replicate 9223372036854775808 (EventSCD "t1" 0),
      autoKey d = none := by
    intro d hd
    rw [(List.mem_replicate.mp hd).2]
    decide
  obtain ⟨v, hv, hle⟩ := writeAll_version_le userConfig _ _ hkeys w hw (hall w hw)
  rw [hv] at hcol
  have hveq : v = ((9223372036854775808 : Nat) : Int) := by
    injection hcol with h1
    injection h1
  rw [hveq] at hle
  revert hle
  decide

/-! ## The contiguity invariant -/

theorem mem_versionRange (N : Nat) (v : Int) : v ∈ versionRange N ↔ 1 ≤ v ∧ v ≤ N :=
  mem_castRange N v

theorem versionRange_succ (N : Nat) : versionRange (N + 1) = versionRange N ++ [(N : Int) + 1] := by
  simp only [versionRange, List.range'_1_concat, List.map_append, List.map_cons, List.map_nil]
  congr 2
  push_cast
  omega

theorem selectMaxVersion_of_perm (rows : List Row) (i : GoValue) (N : Nat)
    (h : (versionsOf rows i).Perm (versionRange N)) : selectMaxVersion rows i = N := by
  cases N with
  | zero =>
    have : versionsOf rows i = [] := by simpa [versionRange] using h
    simpa using selectMaxVersion_of_empty rows i this
  | succ k =>
    apply selectMaxVersion_eq
    · exact h.mem_iff.mpr ((mem_versionRange _ _).mpr ⟨by push_cast; omega, le_rfl⟩)
    · intro x hx
      exact ((mem_versionRange _ _).mp (h.mem_iff.mp hx)).2

theorem Contiguous_append (rows : List Row) (i : GoValue) (N : Nat)
    (p : List (String × GoValue)) (hc : Contiguous rows)
    (hN : (versionsOf rows i).Perm (versionRange N)) :
    Contiguous (rows ++ [⟨i, (N : Int) + 1, p⟩]) := by
  intro j
  rw [versionsOf_append_new]
  by_cases hij : i = j
  · subst hij
    refine ⟨N + 1, ?_⟩
    simp only [if_true]
    show (versionsOf rows i ++ [(N : Int) + 1]).Perm (versionRange (N + 1))
    rw [versionRange_succ]
    exact List.Perm.append_right _ hN
  · simp only [hij, if_false]
    exact hc j

theorem Contiguous_of_check (rows : List Row)
    (h : ∀ i ∈ rows.map (fun r => r.id),
      (versionsOf rows i).Perm (versionRange (versionsOf rows i).length)) :
    Contiguous rows := by
  intro i
  by_cases hi : i ∈ rows.map (fun r => r.id)
  · exact ⟨_, h i hi⟩
  · refine ⟨0, ?_⟩
    have : versionsOf rows i = [] := by
      unfold versionsOf
      rw [List.map_eq_nil_iff, List.filter_eq_nil_iff]
      intro r hr hid
      exact hi (List.mem_map.mpr ⟨r, hr, by simpa using hid⟩)
    rw [this]
    exact List.Perm.refl _

theorem Contiguous_write (s : SCD) (data : Record)
    (hcfg : s.config.IDColumn ≠ s.config.VersionColumn)
    (hc : Contiguous s.db.rows) (hok : (Write s data).err = .ok ())
    (hbelow : ∀ i, columnValue data s.config.IDColumn = some i →
      selectMaxVersion s.db.rows i < maxInt)
    (hkey : keyNotColumn data s.config.IDColumn = true) :
    Contiguous (Write s data).db.rows := by
  obtain ⟨fi, _, _, _, hi, _⟩ := Write_ok_inv s data hok
  have hid : columnValue data s.config.IDColumn = some fi.value := by
    simp [columnValue, hi]
  obtain ⟨N, hN⟩ := hc fi.value
  have hsel := selectMaxVersion_of_perm _ _ N hN
  obtain ⟨_, row, hrid, hrv, hdb, _, _⟩ :=
    Write_ok_result s data fi.value hcfg hok hid (hbelow _ hid) hkey
      (Or.inl (by rw [hsel]; omega))
  rw [hsel] at hrv
  have hrow : row = ⟨fi.value, (N : Int) + 1, row.payload⟩ := by
    cases row
    simp only [Row.mk.injEq, and_true]
    exact ⟨hrid, hrv⟩
  rw [hdb, hrow]
  exact Contiguous_append _ _ N _ hc hN

/-- Why the identity column must not be the generated key: the table holds
version 1 of identity 0; a Write of a record holding identity 0 succeeds and
stores version 2 under the generated key 1, an identity that has no version 1. -/
theorem generated_identity_breaks_contiguity :
    Contiguous [⟨.int 0, 1, []⟩] ∧
    (Write ⟨healthyDB [⟨.int 0, 1, []⟩], keyConfig⟩ (UserSCD "u1" 0 "a" "active")).err
      = .ok () ∧
    ¬ Contiguous
      (Write ⟨healthyDB [⟨.int 0, 1, []⟩], keyConfig⟩ (UserSCD "u1" 0 "a" "active")).db.rows := by
  refine ⟨Contiguous_of_check _ (by decide), by decide, ?_⟩
  intro hc
  obtain ⟨N, hN⟩ := hc (.int 1)
  have hvs : versionsOf
      (Write ⟨healthyDB [⟨.int 0, 1, []⟩], keyConfig⟩ (UserSCD "u1" 0 "a" "active")).db.rows
      (.int 1) = [2] := by decide
  rw [hvs] at hN
  have h2 : (2 : Int) ∈ versionRange N := hN.mem_iff.mp (by simp)
  have hN2 := ((mem_versionRange N 2).mp h2).2
  have h1 : (1 : Int) ∈ versionRange N := (mem_versionRange N 1).mpr ⟨le_rfl, by omega⟩
  have := hN.mem_iff.mpr h1
  simp at this

/-! ## The invariant at the largest Go `int` -/

theorem versionsOf_fullTable : versionsOf fullTable (.str "t1") = versionRange 9223372036854775807 := by
  unfold versionsOf fullTable versionRange
  rw [List.filter_eq_self.mpr, List.map_map]
  · rfl
  · intro r hr
    obtain ⟨k, _, rfl⟩ := List.mem_map.mp hr
    simp

theorem versionsOf_fullTable_other (j : GoValue) (hj : j ≠ .str "t1") :
    versionsOf fullTable j = [] := by
  unfold versionsOf fullTable
  rw [List.map_eq_nil_iff, List.filter_eq_nil_iff]
  intro r hr
  obtain ⟨k, _, rfl⟩ := List.mem_map.mp hr
  simpa using fun h => hj h.symm

theorem Contiguous_fullTable : Contiguous fullTable := by
  intro j
  by_cases hj : j = .str "t1"
  · subst hj
    exact ⟨9223372036854775807, by rw [versionsOf_fullTable]⟩
  · exact ⟨0, by rw [versionsOf_fullTable_other j hj]; exact List.Perm.refl _⟩

theorem selectMaxVersion_fullTable : selectMaxVersion fullTable (.str "t1") = maxInt := by
  have h := selectMaxVersion_of_perm fullTable (.str "t1") 9223372036854775807
    (by rw [versionsOf_fullTable])
  rw [h]
  decide

theorem nextKey_fullTable : nextKey userConfig fullTable "id" = 1 := by
  have h : keyValues userConfig fullTable "id" = [] := by
    unfold keyValues fullTable
    rw [List.filterMap_eq_nil_iff]
    intro r hr
    obtain ⟨k, _, rfl⟩ := List.mem_map.mp hr
    rfl
  unfold nextKey
  rw [h]
  decide

theorem Write_fullTable :
    Write ⟨healthyDB fullTable, userConfig⟩ (UserSCD "t1" 0 "Test" "active") =
      ⟨.ok (),
       healthyDB (fullTable ++ [⟨.str "t1", minInt,
          [("id", .int 1), ("name", .str "Test"), ("status", .str "active")]⟩]),
       ((UserSCD "t1" 0 "Test" "active").store "Version" (.int minInt)).store "ID" (.int 1),
       [.selectMax (.str "t1"),
        .insert ((UserSCD "t1" 0 "Test" "active").store "Version" (.int minInt))]⟩ := by
  have hsel : selectMaxVersion (healthyDB fullTable).rows (.str "t1") = maxInt :=
    selectMaxVersion_fullTable
  have hkey : assignKey userConfig (healthyDB fullTable)
      ((UserSCD "t1" 0 "Test" "active").store "Version" (.int minInt))
      = .ok (((UserSCD "t1" 0 "Test" "active").store "Version" (.int minInt)).store "ID"
          (.int 1)) := by
    have h1 : autoKey ((UserSCD "t1" 0 "Test" "active").store "Version" (.int minInt))
        = some ⟨"ID", "id", .int, .int 0, true, true⟩ := by decide
    have h2 : nextKey userConfig (healthyDB fullTable).rows "id" = 1 := nextKey_fullTable
    simp only [assignKey, h1, h2]
    decide
  have hW := Write_ok_of ⟨healthyDB fullTable, userConfig⟩ (UserSCD "t1" 0 "Test" "active")
    ⟨"UserID", "user_id", .string, .str "t1", true, false⟩
    ⟨"Version", "version", .int, .int 0, true, false⟩
    (((UserSCD "t1" 0 "Test" "active").store "Version" (.int minInt)).store "ID" (.int 1))
    ⟨.str "t1", minInt, [("id", .int 1), ("name", .str "Test"), ("status", .str "active")]⟩
    (by decide) (by decide) rfl (by rw [hsel]; decide) (by rw [hsel])
    (by decide) rfl
    (by rw [hsel, addInt_maxInt]; exact hkey)
    (by decide)
    (by
      intro _
      apply hasPair_eq_false_of_ne
      intro r hr _
      obtain ⟨k, hk, rfl⟩ := List.mem_map.mp hr
      have hk1 := (List.mem_range'_1.mp hk).1
      show (k : Int) ≠ minInt
      have : minInt < 0 := by decide
      omega)
  rw [hW]
  simp only [hsel, addInt_maxInt]
  rfl

/-! ## Two writers interleaved: lemmas -/

/-- A writer running alone, its two steps back to back, is `Write`. -/
theorem writer_alone_eq_Write (config : SCDConfig) (db : DB) (r : Record) :
    (stepWriter config (stepWriter config db (.start r)).1
        (stepWriter config db (.start r)).2).1 = (Write ⟨db, config⟩ r).db ∧
    (stepWriter config (stepWriter config db (.start r)).1
        (stepWriter config db (.start r)).2).2
      = .done (Write ⟨db, config⟩ r).err (Write ⟨db, config⟩ r).record := by
  have hstart : stepWriter config db (.start r) = (db, readMaxStep config db r) := rfl
  rw [hstart]
  simp only [Write, Transaction, writeBody, readMaxStep]
  cases h1 : getStructFieldName db r config.IDColumn with
  | error e => simp [stepWriter]
  | panic p => simp [stepWriter]
  | ok idField =>
    cases h2 : getStructFieldName db r config.VersionColumn with
    | error e => simp [stepWriter]
    | panic p => simp [stepWriter]
    | ok versionField =>
      cases h3 : getFieldValue r idField with
      | error e => simp [stepWriter, h3]
      | panic p => simp [stepWriter, h3]
      | ok uidValue =>
        cases h4 : Scan db uidValue with
        | error e => simp [stepWriter, h3, h4]
        | panic p => simp [stepWriter, h3, h4]
        | ok maxVersion =>
          cases h5 : setFieldValue r versionField (.int (addInt maxVersion 1)) with
          | error e => simp [stepWriter, h3, h4, h5]
          | panic p => simp [stepWriter, h3, h4, h5]
          | ok updated =>
            cases h6 : Create config db updated with
            | error e => simp [stepWriter, insertStep, h3, h4, h5, h6]
            | panic p => simp [stepWriter, insertStep, h3, h4, h5, h6]
            | ok p =>
              obtain ⟨tx2, stored⟩ := p
              simp [stepWriter, insertStep, h3, h4, h5, h6]

/-- Outcome of the read-max step: it returned an error or a panic with the
record as it was, or the writer holds the record with the successor of the
maximum it read. -/
theorem readMaxStep_cases (config : SCDConfig) (db : DB) (r : Record) :
    (∃ e, readMaxStep config db r = .done e r ∧ e ≠ .ok ()) ∨
    ∃ fi fv m,
      (schemaFields r).find? (fun g => decide (g.dbName = config.IDColumn)) = some fi ∧
      (schemaFields r).find? (fun g => decide (g.dbName = config.VersionColumn)) = some fv ∧
      Scan db fi.value = .ok m ∧
      readMaxStep config db r = .pending (r.store fv.name (.int (addInt m 1))) := by
  cases hi : (schemaFields r).find? (fun g => decide (g.dbName = config.IDColumn)) with
  | none =>
    exact Or.inl ⟨.error (.columnNotFound config.IDColumn),
      by simp [readMaxStep, getStructFieldName, hi], by simp⟩
  | some fi =>
    cases hv : (schemaFields r).find? (fun g => decide (g.dbName = config.VersionColumn)) with
    | none =>
      exact Or.inl ⟨.error (.columnNotFound config.VersionColumn),
        by simp [readMaxStep, getStructFieldName, hi, hv], by simp⟩
    | some fv =>
      obtain ⟨_, hei, _, hgi⟩ := schema_field_spec r _ fi hi
      obtain ⟨_, hev, _, hgv⟩ := schema_field_spec r _ fv hv
      have hred : readMaxStep config db r =
          match Scan db fi.value with
          | .error e => .done (.error e) r
          | .panic p => .done (.panic p) r
          | .ok m =>
            if assignableTo .int fv.typ then .pending (r.store fv.name (.int (addInt m 1)))
            else .done (.panic "reflect.Set: value is not assignable to field type") r := by
        simp only [readMaxStep, getStructFieldName, hi, hv, getFieldValue, hgi, hei, if_true,
          setFieldValue, hgv, canSet, hev, Bool.not_true, reflectSet, GoValue.typeOf]
        cases hs : Scan db fi.value with
        | error e => simp
        | panic p => simp
        | ok m =>
          by_cases ha : assignableTo GoType.int fv.typ = true
          · simp only [ha, if_true, Bool.false_eq_true, if_false]
          · simp [ha]
      rw [hred]
      cases hs : Scan db fi.value with
      | error e => exact Or.inl ⟨.error e, rfl, by simp⟩
      | panic p => exact Or.inl ⟨.panic p, rfl, by simp⟩
      | ok m =>
        by_cases ha : assignableTo GoType.int fv.typ = true
        · exact Or.inr ⟨fi, fv, m, rfl, rfl, hs, by simp [ha]⟩
        · exact Or.inl ⟨.panic "reflect.Set: value is not assignable to field type",
            by simp [ha], by simp⟩

theorem Scan_ok (db : DB) (i : GoValue) (m : Int) (h : Scan db i = .ok m) :
    m = selectMaxVersion db.rows i ∧ minInt ≤ m ∧ m ≤ maxInt := by
  unfold Scan at h
  cases hf : db.scanFault with
  | some msg => simp [hf] at h
  | none =>
    simp only [hf] at h
    by_cases hr : minInt ≤ selectMaxVersion db.rows i ∧ selectMaxVersion db.rows i ≤ maxInt
    · simp only [hr, and_self, if_true] at h
      injection h with h
      subst h
      exact ⟨rfl, hr.1, hr.2⟩
    · simp [hr] at h

theorem hasPair_append (rows extra : List Row) (i : GoValue) (v : Int)
    (h : hasPair rows i v = true) : hasPair (rows ++ extra) i v = true := by
  unfold hasPair at *
  rw [List.any_append, h]
  rfl

/-- Outcome of the insert step: the table is as it was and the writer returned
an error or a panic, or `Create` stored a row and the writer returned nil. -/
theorem insertStep_cases (config : SCDConfig) (db : DB) (u : Record) :
    (∃ e, insertStep config db u = (db, .done e u) ∧ e ≠ .ok ()) ∨
    ∃ keyed row, assignKey config db u = .ok keyed ∧ toRow config keyed = some row ∧
      (db.uniqueIndex = true → hasPair db.rows row.id row.version = false) ∧
      insertStep config db u = ({ db with rows := db.rows ++ [row] }, .done (.ok ()) keyed) := by
  cases hC : Create config db u with
  | error e => exact Or.inl ⟨.error e, by simp [insertStep, hC], by simp⟩
  | panic p => exact Or.inl ⟨.panic p, by simp [insertStep, hC], by simp⟩
  | ok p =>
    obtain ⟨tx2, keyed⟩ := p
    obtain ⟨_, hak, row, hrow, hpair, htx⟩ := Create_ok config db tx2 u keyed hC
    refine Or.inr ⟨keyed, row, hak, hrow, hpair, ?_⟩
    simp [insertStep, hC, htx]

/-- Effect of one step of a writer on a table with the unique index. -/
theorem stepWriter_spec (config : SCDConfig) (db : DB) (w : Writer)
    (hu : db.uniqueIndex = true) :
    (stepWriter config db w).1.uniqueIndex = true ∧
    (∀ j v, hasPair db.rows j v = true → hasPair (stepWriter config db w).1.rows j v = true) ∧
    (∀ r2, (stepWriter config db w).2 = .done (.ok ()) r2 →
      w = .done (.ok ()) r2 ∨
      ∃ row, toRow config r2 = some row ∧ hasPair db.rows row.id row.version = false ∧
        hasPair (stepWriter config db w).1.rows row.id row.version = true) := by
  cases w with
  | start r =>
    refine ⟨hu, fun _ _ h => h, ?_⟩
    intro r2 hr2
    exfalso
    simp only [stepWriter] at hr2
    rcases readMaxStep_cases config db r with ⟨e, he, hne⟩ | ⟨_, _, _, _, _, _, hp⟩
    · rw [he] at hr2
      injection hr2 with h1 _
      exact hne h1
    · rw [hp] at hr2
      cases hr2
  | pending u =>
    simp only [stepWriter]
    rcases insertStep_cases config db u with ⟨e, he, hne⟩ | ⟨keyed, row, _, hrow, hpair, hins⟩
    · rw [he]
      refine ⟨hu, fun _ _ h => h, ?_⟩
      intro r2 hr2
      injection hr2 with h1 _
      exact absurd h1 hne
    · rw [hins]
      refine ⟨hu, fun j v h => hasPair_append _ _ j v h, ?_⟩
      intro r2 hr2
      injection hr2 with _ h2
      subst h2
      exact Or.inr ⟨row, hrow, hpair hu, by simp [hasPair]⟩
  | done e r =>
    exact ⟨hu, fun _ _ h => h, fun r2 hr2 => Or.inl hr2⟩

/-- A step of a writer leaves the identity of its record alone when the
identity and version columns differ and the identity is not a generated key. -/
theorem stepWriter_id (config : SCDConfig) (db : DB) (w : Writer) (i : GoValue)
    (hcfg : config.IDColumn ≠ config.VersionColumn)
    (hid : KeepsIdentity config i w) :
    KeepsIdentity config i (stepWriter config db w).2 := by
  cases w with
  | start r =>
    obtain ⟨hcol, hkey⟩ := hid
    simp only [stepWriter]
    rcases readMaxStep_cases config db r with ⟨e, he, _⟩ | ⟨fi, fv, m, hi, hv, _, hp⟩
    · rw [he]
      exact hcol
    · rw [hp]
      have hne := field_names_ne config r fi fv hcfg hi hv
      have hfi : fi.value = i := columnValue_eq_some r _ i fi hi hcol
      exact ⟨by simp [columnValue_store, hi, hne, hfi], by rw [keyNotColumn_store]; exact hkey⟩
  | pending u =>
    obtain ⟨hcol, hkey⟩ := hid
    simp only [stepWriter]
    rcases insertStep_cases config db u with ⟨e, he, _⟩ | ⟨keyed, row, hak, _, _, hins⟩
    · rw [he]
      exact hcol
    · rw [hins]
      show columnValue keyed config.IDColumn = some i
      rw [assignKey_columnValue config db u keyed _ hak hkey]
      exact hcol
  | done e r => exact hid

theorem Committed_step (config : SCDConfig) (db db2 : DB) (w : Writer)
    (hmono : ∀ j v, hasPair db.rows j v = true → hasPair db2.rows j v = true)
    (h : Committed config db w) : Committed config db2 w := by
  intro r hr
  obtain ⟨row, h1, h2⟩ := h r hr
  exact ⟨row, h1, hmono _ _ h2⟩

theorem RaceInv_step (config : SCDConfig) (st : Race) (first : Bool)
    (h : RaceInv config st) : RaceInv config (stepRace config st first) := by
  obtain ⟨hu, hca, hcb, hdist⟩ := h
  cases first with
  | true =>
    obtain ⟨h1, h3, h4⟩ := stepWriter_spec config st.db st.a hu
    refine ⟨h1, ?_, Committed_step config _ _ _ h3 hcb, ?_⟩
    · intro r hr
      rcases h4 r hr with hold | ⟨row, hrow, _, hnew⟩
      · obtain ⟨row, hr1, hr2⟩ := hca r hold
        exact ⟨row, hr1, h3 _ _ hr2⟩
      · exact ⟨row, hrow, hnew⟩
    · intro ra rb rowA rowB ha hb hrowA hrowB
      rcases h4 ra ha with hold | ⟨row, hrow, hfresh, _⟩
      · exact hdist ra rb rowA rowB hold hb hrowA hrowB
      · obtain ⟨row2, hrow2, hpres⟩ := hcb rb hb
        rw [hrowA] at hrow
        rw [hrowB] at hrow2
        injection hrow with hrow
        injection hrow2 with hrow2
        subst hrow hrow2
        rintro ⟨e1, e2⟩
        rw [e1, e2, hpres] at hfresh
        cases hfresh
  | false =>
    obtain ⟨h1, h3, h4⟩ := stepWriter_spec config st.db st.b hu
    refine ⟨h1, Committed_step config _ _ _ h3 hca, ?_, ?_⟩
    · intro r hr
      rcases h4 r hr with hold | ⟨row, hrow, _, hnew⟩
      · obtain ⟨row, hr1, hr2⟩ := hcb r hold
        exact ⟨row, hr1, h3 _ _ hr2⟩
      · exact ⟨row, hrow, hnew⟩
    · intro ra rb rowA rowB ha hb hrowA hrowB
      rcases h4 rb hb with hold | ⟨row, hrow, hfresh, _⟩
      · exact hdist ra rb rowA rowB ha hold hrowA hrowB
      · obtain ⟨row2, hrow2, hpres⟩ := hca ra ha
        rw [hrowB] at hrow
        rw [hrowA] at hrow2
        injection hrow with hrow
        injection hrow2 with hrow2
        subst hrow hrow2
        rintro ⟨e1, e2⟩
        rw [← e1, ← e2, hpres] at hfresh
        cases hfresh

theorem RaceInv_run (config : SCDConfig) (schedule : List Bool) :
    ∀ st, RaceInv config st → RaceInv config (runRace config st schedule) := by
  induction schedule with
  | nil => intro st h; exact h
  | cons t ts ih =>
    intro st h
    exact ih _ (RaceInv_step config st t h)

theorem SameIdentity_run (config : SCDConfig) (i : GoValue)
    (hcfg : config.IDColumn ≠ config.VersionColumn) (schedule : List Bool) :
    ∀ st, SameIdentity config i st → SameIdentity config i (runRace config st schedule) := by
  induction schedule with
  | nil => intro st h; exact h
  | cons t ts ih =>
    intro st h
    apply ih
    cases t with
    | true => exact ⟨stepWriter_id config st.db st.a i hcfg h.1, h.2⟩
    | false => exact ⟨h.1, stepWriter_id config st.db st.b i hcfg h.2⟩

/-! ## The versions the two writers receive -/

theorem okCount_range (w : Writer) : 0 ≤ okCount w ∧ okCount w ≤ 1 := by
  cases w with
  | start r => simp [okCount]
  | pending u => simp [okCount]
  | done e r =>
    by_cases h : e = .ok ()
    · simp [okCount, h]
    · simp [okCount, h]

theorem WriterInv_mono (config : SCDConfig) (i : GoValue) (m0 m m2 : Int) (w : Writer)
    (hle : m ≤ m2) (h : WriterInv config i m0 m w) : WriterInv config i m0 m2 w := by
  cases w with
  | start r => exact h
  | pending u =>
    obtain ⟨h1, h2, h3, k, hk0, hk1, hk2⟩ := h
    exact ⟨h1, h2, h3, k, hk0, le_trans hk1 hle, hk2⟩
  | done e r =>
    intro he
    obtain ⟨v, hv0, hv1, hv2⟩ := h he
    exact ⟨v, hv0, le_trans hv1 hle, hv2⟩

/-- One step of a writer keeps the count invariant: `c` is the number of rows
committed by the other writer. -/
theorem stepWriter_count (config : SCDConfig) (i : GoValue) (m0 c : Int) (db : DB) (w : Writer)
    (hcfg : config.IDColumn ≠ config.VersionColumn)
    (hbound : m0 + 1 < maxInt) (hu : db.uniqueIndex = true)
    (hc0 : 0 ≤ c) (hc1 : c ≤ 1)
    (hM : selectMaxVersion db.rows i = m0 + okCount w + c)
    (hfill : ∀ v, m0 < v → v ≤ selectMaxVersion db.rows i → hasPair db.rows i v = true)
    (hW : WriterInv config i m0 (selectMaxVersion db.rows i) w) :
    (stepWriter config db w).1.uniqueIndex = true ∧
    selectMaxVersion (stepWriter config db w).1.rows i
      = m0 + okCount (stepWriter config db w).2 + c ∧
    (∀ v, m0 < v → v ≤ selectMaxVersion (stepWriter config db w).1.rows i →
      hasPair (stepWriter config db w).1.rows i v = true) ∧
    WriterInv config i m0 (selectMaxVersion (stepWriter config db w).1.rows i)
      (stepWriter config db w).2 ∧
    selectMaxVersion db.rows i ≤ selectMaxVersion (stepWriter config db w).1.rows i := by
  cases w with
  | start r =>
    obtain ⟨hcol, hkI, hkV⟩ := hW
    simp only [stepWriter]
    have hM0 : selectMaxVersion db.rows i = m0 + c := by simpa [okCount] using hM
    rcases readMaxStep_cases config db r with ⟨e, he, hne⟩ | ⟨fi, fv, m, hi, hv, hscan, hp⟩
    · rw [he]
      refine ⟨hu, by simpa [okCount, hne] using hM0, hfill, fun h => absurd h hne, le_rfl⟩
    · rw [hp]
      have hfi : fi.value = i := columnValue_eq_some r _ i fi hi hcol
      rw [hfi] at hscan
      obtain ⟨hm, hmin, _⟩ := Scan_ok db i m hscan
      have hne := field_names_ne config r fi fv hcfg hi hv
      have hadd : addInt m 1 = m + 1 := addInt_one m hmin (by rw [hm, hM0]; omega)
      refine ⟨hu, by simpa [okCount] using hM0, hfill, ?_, le_rfl⟩
      refine ⟨by simp [columnValue_store, hi, hne, hfi],
        by rw [keyNotColumn_store]; exact hkI, by rw [keyNotColumn_store]; exact hkV,
        m, by rw [hm, hM0]; omega, by rw [hm], ?_⟩
      rw [hadd]
      simp [columnValue_store, hv]
  | pending u =>
    obtain ⟨hcol, hkI, hkV, k, hk0, hk1, hver⟩ := hW
    simp only [stepWriter]
    have hM0 : selectMaxVersion db.rows i = m0 + c := by simpa [okCount] using hM
    rcases insertStep_cases config db u with ⟨e, he, hne⟩ | ⟨keyed, row, hak, hrow, hpair, hins⟩
    · rw [he]
      refine ⟨hu, by simpa [okCount, hne] using hM0, hfill, fun h => absurd h hne, le_rfl⟩
    · rw [hins]
      obtain ⟨h1, h2⟩ := toRow_some config keyed row hrow
      rw [assignKey_columnValue config db u keyed _ hak hkI, hcol] at h1
      have hkv2 := assignKey_columnValue config db u keyed _ hak hkV
      rw [hkv2, hver] at h2
      have hrid : row.id = i := (Option.some.inj h1).symm
      have hrv : row.version = k + 1 := by
        injection h2 with h3
        injection h3 with h4
        exact h4.symm
      have hfresh := hpair hu
      rw [hrid, hrv] at hfresh
      have hk : k = selectMaxVersion db.rows i := by
        by_contra hne
        have hlt : k < selectMaxVersion db.rows i := lt_of_le_of_ne hk1 hne
        have := hfill (k + 1) (by omega) (by omega)
        rw [this] at hfresh
        cases hfresh
      have hrowEq : row = ⟨i, selectMaxVersion db.rows i + 1, row.payload⟩ := by
        cases row
        simp only [Row.mk.injEq, and_true]
        exact ⟨hrid, by rw [← hk]; exact hrv⟩
      have hnew : selectMaxVersion (db.rows ++ [row]) i = selectMaxVersion db.rows i + 1 := by
        rw [hrowEq]
        apply selectMaxVersion_append_new
        intro r hr hid
        have := le_selectMaxVersion db.rows i r.version
          ((mem_versionsOf _ _ _).mpr ⟨r, hr, hid, rfl⟩)
        omega
      show db.uniqueIndex = true ∧
        selectMaxVersion (db.rows ++ [row]) i = m0 + okCount (.done (.ok ()) keyed) + c ∧
        (∀ v, m0 < v → v ≤ selectMaxVersion (db.rows ++ [row]) i →
          hasPair (db.rows ++ [row]) i v = true) ∧
        WriterInv config i m0 (selectMaxVersion (db.rows ++ [row]) i) (.done (.ok ()) keyed) ∧
        selectMaxVersion db.rows i ≤ selectMaxVersion (db.rows ++ [row]) i
      rw [hnew]
      refine ⟨hu, by simp only [okCount, if_true]; omega, ?_, ?_, by omega⟩
      · intro v hv0 hv1
        by_cases hv : v ≤ selectMaxVersion db.rows i
        · exact hasPair_append _ _ i v (hfill v hv0 hv)
        · have hv2 : v = selectMaxVersion db.rows i + 1 := by omega
          rw [hrowEq, hv2]
          simp [hasPair]
      · intro _
        exact ⟨selectMaxVersion db.rows i + 1, by omega, le_rfl,
          by rw [hkv2, hver, hk]⟩
  | done e r =>
    exact ⟨hu, hM, hfill, hW, le_rfl⟩

theorem CountInv_step (config : SCDConfig) (i : GoValue) (m0 : Int) (st : Race) (first : Bool)
    (hcfg : config.IDColumn ≠ config.VersionColumn) (hbound : m0 + 1 < maxInt)
    (h : CountInv config i m0 st) : CountInv config i m0 (stepRace config st first) := by
  obtain ⟨hu, hM, hfill, hWa, hWb⟩ := h
  cases first with
  | true =>
    obtain ⟨h1, h2, h3, h4, h5⟩ := stepWriter_count config i m0 (okCount st.b) st.db st.a
      hcfg hbound hu (okCount_range _).1 (okCount_range _).2 hM hfill hWa
    exact ⟨h1, h2, h3, h4, WriterInv_mono config i m0 _ _ _ h5 hWb⟩
  | false =>
    obtain ⟨h1, h2, h3, h4, h5⟩ := stepWriter_count config i m0 (okCount st.a) st.db st.b
      hcfg hbound hu (okCount_range _).1 (okCount_range _).2 (by rw [hM]; ring) hfill hWb
    refine ⟨h1, ?_, h3, WriterInv_mono config i m0 _ _ _ h5 hWa, h4⟩
    show selectMaxVersion (stepWriter config st.db st.b).1.rows i
      = m0 + okCount st.a + okCount (stepWriter config st.db st.b).2
    rw [h2]
    ring

theorem CountInv_run (config : SCDConfig) (i : GoValue) (m0 : Int)
    (hcfg : config.IDColumn ≠ config.VersionColumn) (hbound : m0 + 1 < maxInt)
    (schedule : List Bool) :
    ∀ st, CountInv config i m0 st → CountInv config i m0 (runRace config st schedule) := by
  induction schedule with
  | nil => intro st h; exact h
  | cons t ts ih =>
    intro st h
    exact ih _ (CountInv_step config i m0 st t hcfg hbound h)

/-- Why the identity and version columns must differ: when one column is
configured as both, two successive Writes of equal records both succeed on a
table without the unique index and both assign version 1. -/
theorem same_column_config_repeats_version :
    (WriteAll ⟨⟨[], false, none, none, none⟩, ⟨"counters", "version", "version"⟩⟩
        [CounterSCD 7, CounterSCD 7]).map (fun w => (w.err, columnValue w.record "version"))
      = [(.ok (), some (.int 1)), (.ok (), some (.int 1))] := by
  decide

/-- The model agrees with the three filter cases of `TestSCD_Read`. -/
theorem read_test_cases :
    Read ⟨healthyDB readTestRows, userConfig⟩ [whereEq "status" "active"]
      = .ok [⟨.str "user_2", 2, [("name", .str "BobKiller"), ("status", .str "active")]⟩,
             ⟨.str "user_3", 1, [("name", .str "Charlie"), ("status", .str "active")]⟩] ∧
    Read ⟨healthyDB readTestRows, userConfig⟩ [whereEq "status" "inactive"]
      = .ok [⟨.str "user_1", 2, [("name", .str "Alice"), ("status", .str "inactive")]⟩] ∧
    Read ⟨healthyDB readTestRows, userConfig⟩ [whereEq "name" "Bob"] = .ok [] := by
  refine ⟨by decide, by decide, by decide⟩

/-- The model agrees with `TestSCD_Write`: version 1 for a new identity, then 2. -/
theorem write_test_cases :
    columnValue (Write ⟨healthyDB [], userConfig⟩ (UserSCD "test_123" 0 "Test" "active")).record
        "version" = some (.int 1) ∧
    (WriteAll ⟨healthyDB [], userConfig⟩
        [UserSCD "test_789" 0 "test" "active", UserSCD "test_789" 0 "Test Updated" "active"]).map
        (fun w => (w.err, columnValue w.record "version"))
      = [(.ok (), some (.int 1)), (.ok (), some (.int 2))] := by
  refine ⟨by decide, by decide⟩

/-! # The claims -/

/-- C1: for a table whose (identity, version) pairs are unique and any filters, Read
returns only current rows (maximum version of their identity over the whole
table) that pass every filter; and for each identity, the rows it returns for
that identity are exactly its current row when that row passes all filters,
and none when it fails one, whatever the earlier versions satisfy. -/
theorem read_returns_current_rows_passing_filters (s : SCD) (filters : List (Row → Bool))
    (hfault : s.db.findFault = none) (huniq : UniquePairs s.db.rows) :
    ∃ result, Read s filters = .ok result ∧
      (∀ x ∈ result, x ∈ s.db.rows ∧ IsCurrent s.db.rows x ∧ ∀ f ∈ filters, f x = true) ∧
      (∀ r ∈ s.db.rows, IsCurrent s.db.rows r →
        result.filter (fun x => decide (x.id = r.id))
          = if filters.all (fun f => f r) then [r] else []) := by
  refine ⟨_, Read_eq s filters hfault, ?_, ?_⟩
  · intro x hx
    simp only [List.mem_filter, Bool.and_eq_true, decide_eq_true_eq, List.all_eq_true] at hx
    exact ⟨hx.1, hx.2.2, hx.2.1⟩
  · intro r hr hc
    exact readQuery_filter_id _ _ huniq r hr hc

theorem read_returns_current_rows_passing_filters_witness :
    ∃ result,
      Read ⟨healthyDB
          [⟨.str "user_1", 1, [("status", .str "active")]⟩,
           ⟨.str "user_1", 2, [("status", .str "inactive")]⟩,
           ⟨.str "user_2", 1, [("status", .str "active")]⟩], userConfig⟩
        [fun r => decide (r.payload.lookup "status" = some (.str "active"))] = .ok result ∧
      result.filter (fun x => decide (x.id = .str "user_1")) = [] ∧
      result.filter (fun x => decide (x.id = .str "user_2"))
        = [⟨.str "user_2", 1, [("status", .str "active")]⟩] := by
  obtain ⟨result, h1, _, h3⟩ := read_returns_current_rows_passing_filters
    ⟨healthyDB
      [⟨.str "user_1", 1, [("status", .str "active")]⟩,
       ⟨.str "user_1", 2, [("status", .str "inactive")]⟩,
       ⟨.str "user_2", 1, [("status", .str "active")]⟩], userConfig⟩
    [fun r => decide (r.payload.lookup "status" = some (.str "active"))] rfl
    (by unfold UniquePairs; decide)
  exact ⟨result, h1,
    h3 ⟨.str "user_1", 2, [("status", .str "inactive")]⟩ (by decide) (by decide),
    h3 ⟨.str "user_2", 1, [("status", .str "active")]⟩ (by decide) (by decide)⟩

/-- C2 (amended): a successful Write for a record of identity `i`, whose version
column is not the auto-increment primary key of the model, sets the version
field to `m + 1`, where `m` is the maximum version among the rows of identity
`i`, or 0 when there is none, provided `m` is below the largest Go `int`; the
other fields of the record keep their values, except a zero primary key, which
the database generates; the row inserted is the record as the call leaves it, and
the table afterwards is the table before followed by that one row. -/
theorem write_assigns_next_version (s : SCD) (data : Record) (i : GoValue) (m : Int)
    (hok : (Write s data).err = .ok ())
    (hid : columnValue data s.config.IDColumn = some i)
    (hm : IsMaxOrZero s.db.rows i m) (hmax : m < maxInt)
    (hkey : keyNotColumn data s.config.VersionColumn = true) :
    columnValue (Write s data).record s.config.VersionColumn = some (.int (m + 1)) ∧
    (∃ versionField, getStructFieldName s.db data s.config.VersionColumn = .ok versionField ∧
      ∀ n, n ≠ versionField →
        (∀ key, autoKey data = some key → isZeroKey key.value = true → n ≠ key.name) →
        getValue (Write s data).record n = getValue data n) ∧
    (∃ row, toRow s.config (Write s data).record = some row ∧ row.version = m + 1 ∧
      (Write s data).db.rows = s.db.rows ++ [row]) := by
  obtain ⟨fi, fv, keyed, row, hi, hv, hscan, hmin, hmx, hassign, hcreate, hak, hrow, hpair,
    hdb, hrec⟩ := Write_ok_inv s data hok
  have hfi : fi.value = i := columnValue_eq_some data _ i fi hi hid
  have hsel : selectMaxVersion s.db.rows fi.value = m := by
    rw [hfi]; exact selectMaxVersion_of_isMaxOrZero _ _ _ hm
  have hadd : addInt (selectMaxVersion s.db.rows fi.value) 1 = m + 1 := by
    rw [hsel] at hmin ⊢
    exact addInt_one m hmin hmax
  rw [hadd] at hak
  have hcol : columnValue keyed s.config.VersionColumn = some (.int (m + 1)) := by
    rw [assignKey_columnValue s.config s.db _ keyed _ hak
      (by rw [keyNotColumn_store]; exact hkey)]
    simp [columnValue_store, hv]
  rw [hrec, hdb]
  refine ⟨hcol, ⟨fv.name, by simp [getStructFieldName, hv], ?_⟩, ⟨row, hrow, ?_, rfl⟩⟩
  · intro n hn hnk
    rcases assignKey_ok s.config s.db _ keyed hak with rfl | ⟨f, hf, hz, _, rfl⟩
    · exact getValue_store_other data fv.name n _ hn
    · rw [getValue_store_other _ f.name n _ ?_, getValue_store_other data fv.name n _ hn]
      rw [autoKey_store] at hf
      cases hk : autoKey data with
      | none => simp [hk] at hf
      | some f0 =>
        simp only [hk, Option.map_some', Option.some.injEq] at hf
        have hne0 : f0.name ≠ fv.name := by
          intro hname
          have hsame : f0 = fv := List.inj_on_of_nodup_map data.nodup (autoKey_mem data f0 hk)
            (schema_field_spec data _ fv hv).1 hname
          have hk2 := hkey
          simp only [keyNotColumn, hk, decide_eq_true_eq] at hk2
          exact hk2 (by rw [hsame]; exact (schema_field_spec data _ fv hv).2.2.1)
        rw [if_neg hne0] at hf
        subst hf
        exact hnk f0 hk hz
  · have := (toRow_some s.config keyed row hrow).2
    rw [hcol] at this
    injection this with h1
    injection h1 with h2
    exact h2.symm

theorem write_assigns_next_version_witness :
    columnValue (Write ⟨healthyDB [⟨.str "test_789", 1, []⟩], userConfig⟩
        (UserSCD "test_789" 41 "Test Updated" "active")).record "version"
      = some (.int (1 + 1)) :=
  (write_assigns_next_version ⟨healthyDB [⟨.str "test_789", 1, []⟩], userConfig⟩
    (UserSCD "test_789" 41 "Test Updated" "active") (.str "test_789") 1
    (by decide) (by decide) (Or.inl (by decide)) (by decide) (by decide)).1

/-- C2 (as stated) fails at the largest Go `int`: with a row of version
`2^63 - 1` the Write succeeds and assigns `-2^63`, not the maximum plus one. -/
theorem write_assigns_next_version_counterexample :
    (Write ⟨healthyDB [⟨.str "t1", 9223372036854775807, []⟩], userConfig⟩
        (UserSCD "t1" 0 "Test" "active")).err = .ok () ∧
    columnValue (UserSCD "t1" 0 "Test" "active") userConfig.IDColumn = some (.str "t1") ∧
    IsMaxOrZero [⟨.str "t1", 9223372036854775807, []⟩] (.str "t1") 9223372036854775807 ∧
    columnValue (Write ⟨healthyDB [⟨.str "t1", 9223372036854775807, []⟩], userConfig⟩
        (UserSCD "t1" 0 "Test" "active")).record userConfig.VersionColumn
      = some (.int (-9223372036854775808)) ∧
    columnValue (Write ⟨healthyDB [⟨.str "t1", 9223372036854775807, []⟩], userConfig⟩
        (UserSCD "t1" 0 "Test" "active")).record userConfig.VersionColumn
      ≠ some (.int (9223372036854775807 + 1)) := by
  refine ⟨by decide, by decide, Or.inl (by decide), by decide, by decide⟩

/-- C3 (amended): for a configuration whose identity and version columns differ,
records whose identity column is not their auto-increment primary key, and an
identity without rows, when `n` Writes for that identity, with `n` below
`2^63`, are performed one after another and all succeed, the k-th assigns
version k for k = 1..n; and a Write for an identity without rows that succeeds
assigns version 1. -/
theorem sequential_writes_assign_1_to_n (s : SCD) (recs : List Record) (i : GoValue)
    (hcfg : s.config.IDColumn ≠ s.config.VersionColumn)
    (hnew : ∀ r ∈ s.db.rows, r.id ≠ i)
    (hids : ∀ d ∈ recs, columnValue d s.config.IDColumn = some i)
    (hkeys : ∀ d ∈ recs, keyNotColumn d s.config.IDColumn = true)
    (hlen : (recs.length : Int) ≤ maxInt)
    (hok : ∀ w ∈ WriteAll s recs, w.err = .ok ()) :
    (WriteAll s recs).map (fun w => columnValue w.record s.config.VersionColumn)
        = (List.range' 1 recs.length).map (fun k : Nat => some (GoValue.int k)) ∧
    (∀ d, columnValue d s.config.IDColumn = some i →
      keyNotColumn d s.config.IDColumn = true → (Write s d).err = .ok () →
      columnValue (Write s d).record s.config.VersionColumn = some (.int 1)) := by
  have hnone : versionsOf s.db.rows i = [] := by
    unfold versionsOf
    rw [List.map_eq_nil_iff, List.filter_eq_nil_iff]
    intro r hr
    simpa using hnew r hr
  have hm0 : selectMaxVersion s.db.rows i = 0 := selectMaxVersion_of_empty _ _ hnone
  constructor
  · have h := writeAll_versions_from s.config hcfg i recs s.db 0 hm0 le_rfl (by omega) hids
      hkeys hok
    rw [h]
    apply List.map_congr_left
    intro k _
    simp
  · intro d hid hkd hokd
    obtain ⟨_, _, _, _, _, _, hcol⟩ :=
      Write_ok_result s d i hcfg hokd hid (by rw [hm0]; decide) hkd
        (Or.inl (by rw [hm0]; decide))
    rw [hcol, hm0]
    rfl

theorem sequential_writes_assign_1_to_n_witness :
    (WriteAll ⟨healthyDB [⟨.str "other", 7, []⟩], userConfig⟩
        [UserSCD "test_789" 0 "test" "active", UserSCD "test_789" 0 "Test Updated" "active",
          UserSCD "test_789" 9 "Test Again" "inactive"]).map
        (fun w => columnValue w.record userConfig.VersionColumn)
      = (List.range' 1 3).map (fun k : Nat => some (GoValue.int k)) :=
  (sequential_writes_assign_1_to_n ⟨healthyDB [⟨.str "other", 7, []⟩], userConfig⟩
    [UserSCD "test_789" 0 "test" "active", UserSCD "test_789" 0 "Test Updated" "active",
      UserSCD "test_789" 9 "Test Again" "inactive"] (.str "test_789")
    (by decide) (by decide) (by decide) (by decide) (by decide) (by decide)).1

/-- C3 (as stated) fails when the identity column is the generated primary key:
identity 0 has no row, two Writes of records holding identity 0 are made one
after another and both succeed, and the second assigns version 1 again, the
first row having been stored under the generated key 1. -/
theorem sequential_writes_counterexample :
    (∀ r ∈ (healthyDB []).rows, r.id ≠ .int 0) ∧
    (∀ d ∈ [UserSCD "u1" 0 "a" "active", UserSCD "u2" 0 "b" "active"],
      columnValue d keyConfig.IDColumn = some (.int 0)) ∧
    (∀ w ∈ WriteAll ⟨healthyDB [], keyConfig⟩
        [UserSCD "u1" 0 "a" "active", UserSCD "u2" 0 "b" "active"], w.err = .ok ()) ∧
    (WriteAll ⟨healthyDB [], keyConfig⟩
        [UserSCD "u1" 0 "a" "active", UserSCD "u2" 0 "b" "active"]).map
        (fun w => columnValue w.record keyConfig.VersionColumn)
      = [some (.int 1), some (.int 1)] := by
  refine ⟨by decide, by decide, by decide, by decide⟩

/-- C4: in a table where each identity carries the versions 1..N once each,
Read without filters returns only rows of the table and, for every identity
with N ≥ 1 versions, exactly one row: the row whose version is N. -/
theorem read_latest_wins (s : SCD) (hfault : s.db.findFault = none)
    (hcont : Contiguous s.db.rows) :
    ∃ result, Read s [] = .ok result ∧
      (∀ x ∈ result, x ∈ s.db.rows) ∧
      (∀ (i : GoValue) (N : Nat), 1 ≤ N →
        (versionsOf s.db.rows i).Perm (versionRange N) →
        ∃ r ∈ s.db.rows, r.id = i ∧ r.version = N ∧
          result.filter (fun x => decide (x.id = i)) = [r]) := by
  refine ⟨_, Read_eq s [] hfault, ?_, ?_⟩
  · intro x hx
    exact (List.mem_filter.mp hx).1
  · intro i N hN hperm
    have hmem : (N : Int) ∈ versionsOf s.db.rows i :=
      hperm.mem_iff.mpr ((mem_castRange N N).mpr ⟨by omega, le_rfl⟩)
    obtain ⟨r, hr, hid, hv⟩ := (mem_versionsOf _ _ _).mp hmem
    have hc : IsCurrent s.db.rows r := by
      intro y hy hyid
      have : y.version ∈ versionsOf s.db.rows i :=
        (mem_versionsOf _ _ _).mpr ⟨y, hy, hyid.trans hid, rfl⟩
      have := ((mem_castRange N _).mp (hperm.mem_iff.mp this)).2
      omega
    refine ⟨r, hr, hid, hv, ?_⟩
    have h := readQuery_filter_id s.db.rows [] hcont.uniquePairs r hr hc
    rw [hid] at h
    simpa using h

theorem read_latest_wins_witness :
    ∃ result,
      Read ⟨healthyDB [⟨.str "a", 2, []⟩, ⟨.str "b", 1, []⟩, ⟨.str "a", 1, []⟩, ⟨.str "a", 3, []⟩],
        userConfig⟩ [] = .ok result ∧
      ∃ r, r.version = 3 ∧ result.filter (fun x => decide (x.id = .str "a")) = [r] := by
  obtain ⟨result, h1, _, h3⟩ := read_latest_wins
    ⟨healthyDB [⟨.str "a", 2, []⟩, ⟨.str "b", 1, []⟩, ⟨.str "a", 1, []⟩, ⟨.str "a", 3, []⟩],
      userConfig⟩ rfl
    (Contiguous_of_check _ (by decide))
  obtain ⟨r, _, _, hv, hr⟩ := h3 (.str "a") 3 (by decide) (by decide)
  exact ⟨result, h1, r, hv, hr⟩

/-- C5 (amended): for a configuration whose identity and version columns differ
and a record whose auto-increment primary key is neither of them, after a
successful Write of the record, of identity `i` with stored versions below the
largest Go `int`, Read without filters returns for `i` exactly the row just
written (the record as the call leaves it, with the new version), none of the
earlier versions; and after a first and a second successful Write for an
identity without rows, Read returns for it only the row of the second record,
whose version is 2. -/
theorem read_observes_write (s : SCD) (hcfg : s.config.IDColumn ≠ s.config.VersionColumn)
    (hfault : s.db.findFault = none) :
    (∀ data i, (Write s data).err = .ok () → columnValue data s.config.IDColumn = some i →
      selectMaxVersion s.db.rows i < maxInt →
      keyNotColumn data s.config.IDColumn = true →
      keyNotColumn data s.config.VersionColumn = true →
      ∃ row result, toRow s.config (Write s data).record = some row ∧
        row.id = i ∧ row.version = selectMaxVersion s.db.rows i + 1 ∧
        Read ⟨(Write s data).db, s.config⟩ [] = .ok result ∧
        result.filter (fun x => decide (x.id = i)) = [row]) ∧
    (∀ first second i, versionsOf s.db.rows i = [] →
      columnValue first s.config.IDColumn = some i →
      columnValue second s.config.IDColumn = some i →
      keyNotColumn first s.config.IDColumn = true →
      keyNotColumn second s.config.IDColumn = true →
      (Write s first).err = .ok () →
      (Write ⟨(Write s first).db, s.config⟩ second).err = .ok () →
      ∃ row result,
        toRow s.config (Write ⟨(Write s first).db, s.config⟩ second).record = some row ∧
        row.id = i ∧ row.version = 2 ∧
        Read ⟨(Write ⟨(Write s first).db, s.config⟩ second).db, s.config⟩ [] = .ok result ∧
        result.filter (fun x => decide (x.id = i)) = [row]) := by
  have part1 : ∀ (t : SCD), t.config = s.config → t.db.findFault = none →
      ∀ data i, (Write t data).err = .ok () → columnValue data t.config.IDColumn = some i →
      selectMaxVersion t.db.rows i < maxInt →
      keyNotColumn data t.config.IDColumn = true →
      (selectMaxVersion t.db.rows i + 1 ≠ 0 ∨ keyNotColumn data t.config.VersionColumn = true) →
      ∃ row result, toRow t.config (Write t data).record = some row ∧
        row.id = i ∧ row.version = selectMaxVersion t.db.rows i + 1 ∧
        Read ⟨(Write t data).db, t.config⟩ [] = .ok result ∧
        result.filter (fun x => decide (x.id = i)) = [row] := by
    intro t hcf htf data i hok hid hmax hkid hkv
    have hcfg2 : t.config.IDColumn ≠ t.config.VersionColumn := by rw [hcf]; exact hcfg
    obtain ⟨hmin, row, hrid, hrv, hdb, hrow, _⟩ :=
      Write_ok_result t data i hcfg2 hok hid hmax hkid hkv
    refine ⟨row, _, hrow, hrid, hrv, Read_eq _ [] (by rw [hdb]; exact htf), ?_⟩
    simp only [hdb]
    rw [← hrid]
    apply readQuery_after_append
    intro r hr hr2
    have := le_selectMaxVersion t.db.rows i r.version
      ((mem_versionsOf _ _ _).mpr ⟨r, hr, hr2.trans hrid, rfl⟩)
    omega
  refine ⟨fun data i hok hid hmax hkid hkv =>
    part1 s rfl hfault data i hok hid hmax hkid (Or.inr hkv), ?_⟩
  intro first second i hnone hid1 hid2 hk1 hk2 hok1 hok2
  have hm0 : selectMaxVersion s.db.rows i = 0 := selectMaxVersion_of_empty _ _ hnone
  have hlt0 : selectMaxVersion s.db.rows i < maxInt := by rw [hm0]; decide
  obtain ⟨_, row1, hr1id, hr1v, hdb, _, _⟩ :=
    Write_ok_result s first i hcfg hok1 hid1 hlt0 hk1 (Or.inl (by rw [hm0]; decide))
  have hm1 : selectMaxVersion (Write s first).db.rows i = 1 := by
    rw [hdb]
    have hrow1 : row1 = ⟨i, 1, row1.payload⟩ := by
      rw [hm0] at hr1v
      cases row1
      simp only [Row.mk.injEq, and_true]
      exact ⟨hr1id, hr1v⟩
    rw [hrow1]
    apply selectMaxVersion_append_new
    intro r hr hrid
    have : r.version ∈ versionsOf s.db.rows i := (mem_versionsOf _ _ _).mpr ⟨r, hr, hrid, rfl⟩
    rw [hnone] at this
    simp at this
  have hf1 : (Write s first).db.findFault = none := by rw [hdb]; exact hfault
  obtain ⟨row, result, hrow, hrid, hrv, hread, hres⟩ :=
    part1 ⟨(Write s first).db, s.config⟩ rfl hf1 second i hok2 hid2 (by rw [hm1]; decide)
      hk2 (Or.inl (by rw [hm1]; decide))
  refine ⟨row, result, hrow, hrid, ?_, hread, hres⟩
  rw [hrv]
  simp only [hm1]
  rfl

theorem read_observes_write_witness :
    ∃ result,
      Read ⟨(Write ⟨(Write ⟨healthyDB [], userConfig⟩ (UserSCD "t1" 0 "test" "active")).db,
          userConfig⟩ (UserSCD "t1" 0 "Test Updated" "active")).db, userConfig⟩ [] = .ok result ∧
      result.filter (fun x => decide (x.id = .str "t1"))
        = [⟨.str "t1", 2, [("id", .int 2), ("name", .str "Test Updated"),
            ("status", .str "active")]⟩] := by
  obtain ⟨row, result, hrow, _, _, hread, hres⟩ :=
    (read_observes_write ⟨healthyDB [], userConfig⟩ (by decide) rfl).2
      (UserSCD "t1" 0 "test" "active") (UserSCD "t1" 0 "Test Updated" "active") (.str "t1")
      (by decide) (by decide) (by decide) (by decide) (by decide) (by decide) (by decide)
  have hconcrete : toRow userConfig
      (Write ⟨(Write ⟨healthyDB [], userConfig⟩ (UserSCD "t1" 0 "test" "active")).db,
        userConfig⟩ (UserSCD "t1" 0 "Test Updated" "active")).record
      = some ⟨.str "t1", 2, [("id", .int 2), ("name", .str "Test Updated"),
          ("status", .str "active")]⟩ := by decide
  have hrow2 : toRow userConfig
      (Write ⟨(Write ⟨healthyDB [], userConfig⟩ (UserSCD "t1" 0 "test" "active")).db,
        userConfig⟩ (UserSCD "t1" 0 "Test Updated" "active")).record = some row := hrow
  rw [hconcrete] at hrow2
  injection hrow2 with hrow2
  exact ⟨result, hread, by rw [hres, hrow2]⟩

/-- C5 (as stated) fails at the largest Go `int`: the table holds one row, of
version `2^63 - 1`; the Write succeeds and inserts version `-2^63`; Read then
returns the old row for the identity, not the row just written. -/
theorem read_observes_write_counterexample :
    UniquePairs [⟨.str "t1", 9223372036854775807, []⟩] ∧
    (Write ⟨healthyDB [⟨.str "t1", 9223372036854775807, []⟩], userConfig⟩
        (UserSCD "t1" 0 "Test" "active")).err = .ok () ∧
    Read ⟨(Write ⟨healthyDB [⟨.str "t1", 9223372036854775807, []⟩], userConfig⟩
        (UserSCD "t1" 0 "Test" "active")).db, userConfig⟩ []
      = .ok [⟨.str "t1", 9223372036854775807, []⟩] := by
  refine ⟨by unfold UniquePairs; decide, by decide, by decide⟩

/-- C6 (amended): for a configuration whose identity and version columns differ,
the predicate "for every identity the versions of its rows are exactly 1..N"
holds of the empty table, is preserved by every successful Write made while
the stored versions of the record's identity are below the largest Go `int`,
of a record whose identity column is not its auto-increment primary key, and
so holds of every table reached from an empty one by such Writes. (Read
returns rows and has no table to change.) -/
theorem contiguity_invariant (config : SCDConfig)
    (hcfg : config.IDColumn ≠ config.VersionColumn) :
    Contiguous [] ∧
    (∀ (db : DB) (data : Record), Contiguous db.rows →
      (Write ⟨db, config⟩ data).err = .ok () →
      (∀ i, columnValue data config.IDColumn = some i → selectMaxVersion db.rows i < maxInt) →
      keyNotColumn data config.IDColumn = true →
      Contiguous (Write ⟨db, config⟩ data).db.rows) ∧
    (∀ db, ReachableBelow config db → Contiguous db.rows) := by
  have hnil : Contiguous [] := fun _ => ⟨0, by simp [versionsOf, versionRange]⟩
  have hstep : ∀ (db : DB) (data : Record), Contiguous db.rows →
      (Write ⟨db, config⟩ data).err = .ok () →
      (∀ i, columnValue data config.IDColumn = some i → selectMaxVersion db.rows i < maxInt) →
      keyNotColumn data config.IDColumn = true →
      Contiguous (Write ⟨db, config⟩ data).db.rows :=
    fun db data hc hok hb hk => Contiguous_write ⟨db, config⟩ data hcfg hc hok hb hk
  refine ⟨hnil, hstep, ?_⟩
  intro db hreach
  induction hreach with
  | empty db h => rw [h]; exact hnil
  | write db data _ hok hbelow hkey ih => exact hstep db data ih hok hbelow hkey

theorem contiguity_invariant_witness :
    Contiguous (Write ⟨(Write ⟨healthyDB [], userConfig⟩ (UserSCD "t1" 0 "a" "active")).db,
      userConfig⟩ (UserSCD "t1" 0 "b" "active")).db.rows :=
  (contiguity_invariant userConfig (by decide)).2.2 _
    (ReachableBelow.write _ (UserSCD "t1" 0 "b" "active")
      (ReachableBelow.write _ (UserSCD "t1" 0 "a" "active")
        (ReachableBelow.empty (healthyDB []) rfl) (by decide)
        (by
          intro i _
          have h : selectMaxVersion (healthyDB []).rows i = 0 := rfl
          rw [h]; decide)
        (by decide))
      (by decide)
      (by
        intro i hi
        have hi2 : i = .str "t1" := by
          have h : columnValue (UserSCD "t1" 0 "b" "active") userConfig.IDColumn
              = some (.str "t1") := by decide
          rw [h] at hi
          exact (Option.some.inj hi).symm
        rw [hi2]
        decide)
      (by decide))

/-- C6 (as stated) fails at the largest Go `int`: the table holding the
versions 1 .. 2^63 - 1 of "t1" satisfies the predicate, the next Write for "t1"
succeeds, and the table it leaves (with a row of version `-2^63`) does not. -/
theorem contiguity_invariant_counterexample :
    Contiguous fullTable ∧
    (Write ⟨healthyDB fullTable, userConfig⟩ (UserSCD "t1" 0 "Test" "active")).err = .ok () ∧
    ¬ Contiguous
      (Write ⟨healthyDB fullTable, userConfig⟩ (UserSCD "t1" 0 "Test" "active")).db.rows := by
  refine ⟨Contiguous_fullTable, by rw [Write_fullTable], ?_⟩
  rw [Write_fullTable]
  intro hc
  obtain ⟨N, hN⟩ := hc (.str "t1")
  have hmem : minInt ∈ versionsOf (healthyDB (fullTable ++ [⟨.str "t1", minInt,
      [("id", .int 1), ("name", .str "Test"), ("status", .str "active")]⟩])).rows
      (.str "t1") := by
    show minInt ∈ versionsOf (fullTable ++ [⟨.str "t1", minInt, _⟩]) (.str "t1")
    rw [versionsOf_append_new]
    simp
  have h1 := ((mem_castRange N minInt).mp (hN.mem_iff.mp hmem)).1
  revert h1
  decide

/-- C7: setFieldValue does not report every failure as an error. Storing the `int`
version into a version field declared `int64` returns no error: the call
panics, and so does the Write that makes it, while a missing field and an
unexported field on the same record do get their errors. -/
theorem setFieldValue_type_mismatch_panics :
    setFieldValue (LedgerSCD "u1") "Version" (.int 1)
      = .panic "reflect.Set: value is not assignable to field type" ∧
    (¬ ∃ e, setFieldValue (LedgerSCD "u1") "Version" (.int 1) = .error e) ∧
    (Write ⟨healthyDB [], userConfig⟩ (LedgerSCD "u1")).err
      = .panic "reflect.Set: value is not assignable to field type" ∧
    setFieldValue (LedgerSCD "u1") "Missing" (.int 1) = .error (.fieldNotFound "Missing") ∧
    setFieldValue (LedgerSCD "u1") "note" (.str "x") = .error (.cannotSet "note") := by
  refine ⟨by decide, ?_, by decide, by decide, by decide⟩
  rintro ⟨e, he⟩
  have h : setFieldValue (LedgerSCD "u1") "Version" (.int 1)
      = .panic "reflect.Set: value is not assignable to field type" := by decide
  rw [h] at he
  cases he

/-- C8: when Write returns an error the table (the whole database state) is
what it was before the call; a missing-column error is returned with no
statement issued to the storage and with the record unchanged; and a record
lacking a field for the identity or the version column gets that error. -/
theorem write_atomic_on_error (s : SCD) (data : Record) :
    (∀ e, (Write s data).err = .error e → (Write s data).db = s.db) ∧
    (∀ c, (Write s data).err = .error (.columnNotFound c) →
      (Write s data).issued = [] ∧ (Write s data).record = data) ∧
    ((getStructFieldName s.db data s.config.IDColumn = .error (.columnNotFound s.config.IDColumn) ∨
      getStructFieldName s.db data s.config.VersionColumn
        = .error (.columnNotFound s.config.VersionColumn)) →
      ∃ c, (Write s data).err = .error (.columnNotFound c)) := by
  refine ⟨?_, ?_, ?_⟩
  · intro e he
    exact Transaction_rollback _ _ (fun u hu => by
      have hw : (Write s data).err = .ok u := hu
      rw [he] at hw
      cases hw)
  · intro c hc
    cases hi : (schemaFields data).find? (fun g => decide (g.dbName = s.config.IDColumn)) with
    | none => rw [Write_columnNotFound_id s data hi]; exact ⟨rfl, rfl⟩
    | some fi =>
      cases hv : (schemaFields data).find?
          (fun g => decide (g.dbName = s.config.VersionColumn)) with
      | none => rw [Write_columnNotFound_version s data fi hi hv]; exact ⟨rfl, rfl⟩
      | some fv => exact absurd hc (Write_err_not_columnNotFound s data fi fv c hi hv)
  · intro h
    cases hi : (schemaFields data).find? (fun g => decide (g.dbName = s.config.IDColumn)) with
    | none => exact ⟨_, by rw [Write_columnNotFound_id s data hi]⟩
    | some fi =>
      cases hv : (schemaFields data).find?
          (fun g => decide (g.dbName = s.config.VersionColumn)) with
      | none => exact ⟨_, by rw [Write_columnNotFound_version s data fi hi hv]⟩
      | some fv =>
        rcases h with h | h
        · simp [getStructFieldName, hi] at h
        · simp [getStructFieldName, hv] at h

theorem write_atomic_on_error_witness :
    (Write ⟨healthyDB [⟨.str "u1", 1, []⟩], userConfig⟩ (PlainUser "u1")).err
        = .error (.columnNotFound "version") ∧
    (Write ⟨healthyDB [⟨.str "u1", 1, []⟩], userConfig⟩ (PlainUser "u1")).db
        = healthyDB [⟨.str "u1", 1, []⟩] ∧
    (Write ⟨healthyDB [⟨.str "u1", 1, []⟩], userConfig⟩ (PlainUser "u1")).issued = [] ∧
    (Write ⟨healthyDB [⟨.str "u1", 1, []⟩], userConfig⟩ (PlainUser "u1")).record
        = PlainUser "u1" ∧
    (Write ⟨⟨[⟨.str "u1", 1, []⟩, ⟨.str "u1", 2, []⟩], true, none, some "connection reset", none⟩,
        userConfig⟩ (UserSCD "u1" 0 "Alice" "active")).db
      = ⟨[⟨.str "u1", 1, []⟩, ⟨.str "u1", 2, []⟩], true, none, some "connection reset", none⟩ :=
  ⟨by decide,
   (write_atomic_on_error ⟨healthyDB [⟨.str "u1", 1, []⟩], userConfig⟩ (PlainUser "u1")).1
      (.columnNotFound "version") (by decide),
   ((write_atomic_on_error ⟨healthyDB [⟨.str "u1", 1, []⟩], userConfig⟩ (PlainUser "u1")).2.1
      "version" (by decide)).1,
   ((write_atomic_on_error ⟨healthyDB [⟨.str "u1", 1, []⟩], userConfig⟩ (PlainUser "u1")).2.1
      "version" (by decide)).2,
   (write_atomic_on_error
      ⟨⟨[⟨.str "u1", 1, []⟩, ⟨.str "u1", 2, []⟩], true, none, some "connection reset", none⟩,
        userConfig⟩ (UserSCD "u1" 0 "Alice" "active")).1
      (.storage "connection reset") (by decide)⟩

/-- C9 (amended): on a table whose storage enforces uniqueness of (identity,
version), for two records of the same identity whose identity column is not
their auto-increment primary key, in every interleaving of the read-max and
insert steps of the two Writes, if both return nil then the versions they
assigned differ; and when moreover the identity and version columns differ,
the version column is not the generated key either and the maximum version
`m` stored for the identity has `m + 1` below the largest Go `int`, the two
versions are `m + 1` and `m + 2`, one each. -/
theorem concurrent_writes_distinct_versions (config : SCDConfig) (db : DB)
    (first second : Record) (i : GoValue) (schedule : List Bool)
    (hunique : db.uniqueIndex = true)
    (hfirst : columnValue first config.IDColumn = some i)
    (hsecond : columnValue second config.IDColumn = some i)
    (hkeyA : keyNotColumn first config.IDColumn = true)
    (hkeyB : keyNotColumn second config.IDColumn = true)
    (ra rb : Record)
    (ha : (runRace config ⟨db, .start first, .start second⟩ schedule).a = .done (.ok ()) ra)
    (hb : (runRace config ⟨db, .start first, .start second⟩ schedule).b = .done (.ok ()) rb) :
    ∃ va vb : Int, columnValue ra config.VersionColumn = some (.int va) ∧
      columnValue rb config.VersionColumn = some (.int vb) ∧ va ≠ vb ∧
      (config.IDColumn ≠ config.VersionColumn →
        keyNotColumn first config.VersionColumn = true →
        keyNotColumn second config.VersionColumn = true →
        selectMaxVersion db.rows i + 1 < maxInt →
        (va = selectMaxVersion db.rows i + 1 ∧ vb = selectMaxVersion db.rows i + 2) ∨
        (va = selectMaxVersion db.rows i + 2 ∧ vb = selectMaxVersion db.rows i + 1)) := by
  have hinit : RaceInv config ⟨db, .start first, .start second⟩ := by
    refine ⟨hunique, ?_, ?_, ?_⟩
    · intro r hr
      cases hr
    · intro r hr
      cases hr
    · intro ra rb _ _ h
      cases h
  obtain ⟨_, hca, hcb, hdist⟩ := RaceInv_run config schedule _ hinit
  obtain ⟨rowA, hrowA, _⟩ := hca ra ha
  obtain ⟨rowB, hrowB, _⟩ := hcb rb hb
  obtain ⟨hA1, hA2⟩ := toRow_some config ra rowA hrowA
  obtain ⟨hB1, hB2⟩ := toRow_some config rb rowB hrowB
  have hne : rowA.version ≠ rowB.version := by
    intro hv
    apply hdist ra rb rowA rowB ha hb hrowA hrowB
    refine ⟨?_, hv⟩
    by_cases hcfg : config.IDColumn = config.VersionColumn
    · rw [hcfg, hA2] at hA1
      rw [hcfg, hB2] at hB1
      rw [← Option.some.inj hA1, ← Option.some.inj hB1, hv]
    · obtain ⟨hida, hidb⟩ := SameIdentity_run config i hcfg schedule
        ⟨db, .start first, .start second⟩ ⟨⟨hfirst, hkeyA⟩, ⟨hsecond, hkeyB⟩⟩
      rw [ha] at hida
      rw [hb] at hidb
      simp only [KeepsIdentity] at hida hidb
      rw [hA1] at hida
      rw [hB1] at hidb
      exact (Option.some.inj hida).trans (Option.some.inj hidb).symm
  refine ⟨rowA.version, rowB.version, hA2, hB2, hne, ?_⟩
  intro hcfg hkvA hkvB hbound
  have hcount : CountInv config i (selectMaxVersion db.rows i)
      ⟨db, .start first, .start second⟩ :=
    ⟨hunique, by simp [okCount],
      fun v (h1 : selectMaxVersion db.rows i < v) (h2 : v ≤ selectMaxVersion db.rows i) =>
        absurd h2 (by omega),
      ⟨hfirst, hkeyA, hkvA⟩, ⟨hsecond, hkeyB, hkvB⟩⟩
  obtain ⟨_, hM, _, hWa, hWb⟩ := CountInv_run config i _ hcfg hbound schedule _ hcount
  rw [ha] at hWa hM
  rw [hb] at hWb hM
  obtain ⟨va, hva0, hva1, hva2⟩ := hWa rfl
  obtain ⟨vb, hvb0, hvb1, hvb2⟩ := hWb rfl
  rw [hA2] at hva2
  rw [hB2] at hvb2
  have ea : rowA.version = va := by
    injection hva2 with h
    injection h
  have eb : rowB.version = vb := by
    injection hvb2 with h
    injection h
  simp only [okCount, if_true] at hM
  omega

theorem concurrent_writes_distinct_versions_witness :
    (runRace userConfig ⟨healthyDB [], .start (UserSCD "t1" 0 "a" "active"),
        .start (UserSCD "t1" 0 "b" "active")⟩ [true, false, true, false]).b
      = .done (.error .uniqueViolation) ((UserSCD "t1" 0 "b" "active").store "Version" (.int 1)) ∧
    ∃ va vb : Int,
      columnValue (((UserSCD "t1" 0 "a" "active").store "Version" (.int 1)).store "ID" (.int 1))
        userConfig.VersionColumn = some (.int va) ∧
      columnValue (((UserSCD "t1" 0 "b" "active").store "Version" (.int 2)).store "ID" (.int 2))
        userConfig.VersionColumn = some (.int vb) ∧ va ≠ vb ∧
      ((va = selectMaxVersion (healthyDB []).rows (.str "t1") + 1 ∧
          vb = selectMaxVersion (healthyDB []).rows (.str "t1") + 2) ∨
        (va = selectMaxVersion (healthyDB []).rows (.str "t1") + 2 ∧
          vb = selectMaxVersion (healthyDB []).rows (.str "t1") + 1)) := by
  refine ⟨by decide, ?_⟩
  obtain ⟨va, vb, h1, h2, h3, h4⟩ :=
    concurrent_writes_distinct_versions userConfig (healthyDB [])
      (UserSCD "t1" 0 "a" "active") (UserSCD "t1" 0 "b" "active") (.str "t1")
      [true, true, false, false] rfl (by decide) (by decide) (by decide) (by decide)
      (((UserSCD "t1" 0 "a" "active").store "Version" (.int 1)).store "ID" (.int 1))
      (((UserSCD "t1" 0 "b" "active").store "Version" (.int 2)).store "ID" (.int 2))
      (by decide) (by decide)
  exact ⟨va, vb, h1, h2, h3, h4 (by decide) (by decide) (by decide) (by decide)⟩

/-- C9 (as stated) fails when the identity column is the generated primary
key: both records hold identity 0 on entry, the table enforces uniqueness of
(identity, version), the two Writes run one after the other, both return nil
and both assigned version 1 (the rows are stored under the keys 1 and 2). -/
theorem concurrent_writes_counterexample :
    (healthyDB []).uniqueIndex = true ∧
    columnValue (UserSCD "u1" 0 "a" "active") keyConfig.IDColumn = some (.int 0) ∧
    columnValue (UserSCD "u2" 0 "b" "active") keyConfig.IDColumn = some (.int 0) ∧
    (runRace keyConfig ⟨healthyDB [], .start (UserSCD "u1" 0 "a" "active"),
        .start (UserSCD "u2" 0 "b" "active")⟩ [true, true, false, false]).a
      = .done (.ok ())
          (((UserSCD "u1" 0 "a" "active").store "Version" (.int 1)).store "ID" (.int 1)) ∧
    (runRace keyConfig ⟨healthyDB [], .start (UserSCD "u1" 0 "a" "active"),
        .start (UserSCD "u2" 0 "b" "active")⟩ [true, true, false, false]).b
      = .done (.ok ())
          (((UserSCD "u2" 0 "b" "active").store "Version" (.int 1)).store "ID" (.int 2)) ∧
    columnValue (((UserSCD "u1" 0 "a" "active").store "Version" (.int 1)).store "ID" (.int 1))
      keyConfig.VersionColumn = some (.int 1) ∧
    columnValue (((UserSCD "u2" 0 "b" "active").store "Version" (.int 1)).store "ID" (.int 2))
      keyConfig.VersionColumn = some (.int 1) := by
  refine ⟨rfl, by decide, by decide, by decide, by decide, by decide, by decide⟩

/-- C10 (amended): for a configuration whose identity and version columns differ
and a record of identity `i` whose stored versions are all below the largest
Go `int`, Write never returns the uniqueness violation, and whenever it issues
the insert, the record it inserts has identity `i` and the version max + 1, which
is strictly greater than the version of every existing row of `i`, so that
pair is not in the table. -/
theorem write_never_collides (s : SCD) (data : Record) (i : GoValue)
    (hcfg : s.config.IDColumn ≠ s.config.VersionColumn)
    (hid : columnValue data s.config.IDColumn = some i)
    (hmax : selectMaxVersion s.db.rows i < maxInt) :
    (Write s data).err ≠ .error .uniqueViolation ∧
    ∀ updated, Stmt.insert updated ∈ (Write s data).issued →
      ∃ row, toRow s.config updated = some row ∧ row.id = i ∧
        row.version = selectMaxVersion s.db.rows i + 1 ∧
        (∀ r ∈ s.db.rows, r.id = i → r.version < row.version) ∧
        hasPair s.db.rows row.id row.version = false := by
  cases hi : (schemaFields data).find? (fun g => decide (g.dbName = s.config.IDColumn)) with
  | none => simp [columnValue, hi] at hid
  | some fi =>
    have hfi : fi.value = i := columnValue_eq_some data _ i fi hi hid
    cases hv : (schemaFields data).find?
        (fun g => decide (g.dbName = s.config.VersionColumn)) with
    | none => rw [Write_columnNotFound_version s data fi hi hv]; simp
    | some fv =>
      have hne : fi.name ≠ fv.name := field_names_ne s.config data fi fv hcfg hi hv
      rw [Write_eq s data fi fv hi hv, hfi]
      have hinsert : minInt ≤ selectMaxVersion s.db.rows i →
          ∃ row, toRow s.config (data.store fv.name
              (.int (addInt (selectMaxVersion s.db.rows i) 1))) = some row ∧ row.id = i ∧
            row.version = selectMaxVersion s.db.rows i + 1 ∧
            (∀ r ∈ s.db.rows, r.id = i → r.version < row.version) ∧
            hasPair s.db.rows row.id row.version = false := by
        intro hmin
        have hlt := version_lt_next s.db.rows i hmin hmax
        refine ⟨_, toRow_store s.config data fi fv _ hi hv, ?_, ?_, ?_, ?_⟩
        · simp [storedId, hne, hfi]
        · exact addInt_one _ hmin hmax
        · exact hlt
        · simp only [storedId, hne, if_false, hfi]
          exact hasPair_eq_false_of_lt _ _ _ hlt
      cases hscan : s.db.scanFault with
      | some msg => simp
      | none =>
        by_cases hr : minInt ≤ selectMaxVersion s.db.rows i ∧
            selectMaxVersion s.db.rows i ≤ maxInt
        · have hlt := version_lt_next s.db.rows i hr.1 hmax
          simp only [hr, and_self, if_true]
          by_cases ha : assignableTo GoType.int fv.typ = true
          · simp only [ha, if_true]
            have hmem : ∀ updated, Stmt.insert updated ∈
                [Stmt.selectMax i, Stmt.insert (data.store fv.name
                  (.int (addInt (selectMaxVersion s.db.rows i) 1)))] →
                updated = data.store fv.name
                  (.int (addInt (selectMaxVersion s.db.rows i) 1)) := by
              intro updated hu
              simpa using hu
            cases hc : Create s.config s.db (data.store fv.name
                (.int (addInt (selectMaxVersion s.db.rows i) 1))) with
            | error e =>
              refine ⟨?_, ?_⟩
              · simp only
                intro he
                injection he with he
                rw [he] at hc
                obtain ⟨keyed, row, hak, hrow, hp⟩ := Create_uniqueViolation s.config s.db _ hc
                have := keyed_pair_fresh s.config s.db data keyed fi fv _ row hcfg hi hv
                  (by rw [hfi]; exact hlt) hak hrow
                rw [this] at hp
                cases hp
              · intro updated hu
                rw [hmem updated hu]
                exact hinsert hr.1
            | panic p =>
              refine ⟨by simp, ?_⟩
              intro updated hu
              rw [hmem updated hu]
              exact hinsert hr.1
            | ok pair =>
              refine ⟨by simp, ?_⟩
              intro updated hu
              rw [hmem updated hu]
              exact hinsert hr.1
          · simp [ha]
        · simp [hr]

theorem write_never_collides_witness :
    (Write ⟨healthyDB [⟨.str "u1", 1, []⟩, ⟨.str "u1", 5, []⟩, ⟨.str "u1", 5, []⟩], userConfig⟩
        (UserSCD "u1" 0 "Alice" "active")).err = .ok () ∧
    (Write ⟨healthyDB [⟨.str "u1", 1, []⟩, ⟨.str "u1", 5, []⟩, ⟨.str "u1", 5, []⟩], userConfig⟩
        (UserSCD "u1" 0 "Alice" "active")).err ≠ .error .uniqueViolation :=
  ⟨by decide,
   (write_never_collides
      ⟨healthyDB [⟨.str "u1", 1, []⟩, ⟨.str "u1", 5, []⟩, ⟨.str "u1", 5, []⟩], userConfig⟩
      (UserSCD "u1" 0 "Alice" "active") (.str "u1") (by decide) (by decide) (by decide)).1⟩

/-- C10 (as stated) fails at the largest Go `int`: with rows of versions
`2^63 - 1` and `-2^63` for the identity, the version Write computes is `-2^63`,
not greater than the existing ones, the pair is already present, and the insert
is rejected by the unique index with no other writer involved. -/
theorem write_never_collides_counterexample :
    (Write ⟨healthyDB [⟨.str "u1", 9223372036854775807, []⟩,
        ⟨.str "u1", -9223372036854775808, []⟩], userConfig⟩
        (UserSCD "u1" 0 "Alice" "active")).err = .error .uniqueViolation ∧
    columnValue (Write ⟨healthyDB [⟨.str "u1", 9223372036854775807, []⟩,
        ⟨.str "u1", -9223372036854775808, []⟩], userConfig⟩
        (UserSCD "u1" 0 "Alice" "active")).record userConfig.VersionColumn
      = some (.int (-9223372036854775808)) := by
  refine ⟨by decide, by decide⟩

end Mercor
